import Mathlib

/-!
Shallow embedding of a CPU-scheduling simulator written in C (single file,
`main.c`): FIFO, non-preemptive SJF, round robin with quantum 0.5, and a
three-level MLFQ, over four built-in scenarios.

Modelling conventions:
* C `double` values are modelled as exact rationals `ℚ`; every constant the
  program manipulates (0.5, 1e-9, 1e-6, the scenario data) is exactly
  representable, and the only operations used are `+`, `-`, `min`, `abs`
  and comparisons.
* The scheduling loops of the C program are `while` loops; they are modelled
  with an explicit fuel argument and return `none` when the fuel runs out.
* The C arrays of processes and the pointer queues are modelled as `List`s;
  popping the head and pushing at the tail mirror the index arithmetic of
  the source.
* `qsort` with comparator `cmp_total_cpu` guarantees only a permutation of
  its input that is sorted by the comparator; ISO C (and glibc, whose qsort
  is not stable) leave the relative order of equal keys unspecified. The
  qsort call is therefore modelled by the relation `qsortResult` and the
  SJF theorems quantify over every admissible output.
* `run_rr`'s pointer queue is a malloc'd array of fixed capacity `2 * n`
  whose write index `qend` only grows and is never bounds-checked
  (`queue[qend++]`); the embedding models the capacity exactly and returns
  the `overflow` outcome where the C code would write past the buffer
  (undefined behaviour).
-/

namespace Sched

/-- `EPS` of the C program: `#define EPS 1e-9`. -/
def EPS : ℚ := 1e-9

/-- The literal `1e-6` tolerance used in the I/O-trigger test of `eat_cpu`. -/
def TRIG : ℚ := 1e-6

/-- `QUANTUM` of the C program: `#define QUANTUM 0.5`. -/
def QUANTUM : ℚ := 0.5

/-- One I/O event: `when_cpu` is the cumulative-CPU threshold at which the
event fires, `duration` the blocking time it adds. -/
structure IOEvent where
  when_cpu : ℚ
  duration : ℚ
deriving Repr, DecidableEq

/-- The C `Process` struct: immutable definition fields (`name`,
`total_cpu_needed`, `io_events`) together with the runtime-state fields
initialised by `clone_processes`. `io_count` of the C struct is
`io_events.length`. -/
structure Process where
  name : String
  total_cpu_needed : ℚ
  io_events : List IOEvent
  remaining : ℚ
  cpu_consumed : ℚ
  blocked_time : ℚ
  first_run_time : ℚ
  finish_time : ℚ
  next_io_index : ℕ
deriving Repr, DecidableEq

/-- The C `Result` struct (one metrics record per finished process). -/
structure Result where
  name : String
  Elapsed : ℚ
  CPU : ℚ
  BLOCKED : ℚ
  FirstRun : ℚ
deriving Repr, DecidableEq

/-- `clone_processes`: shallow copy plus deep copy of the I/O list, then the
runtime state is initialised (`remaining = total_cpu_needed`, counters zero,
`first_run_time = finish_time = -1`, `next_io_index = 0`). -/
def clone_processes (src : List Process) : List Process :=
  src.map fun p =>
    { p with
      remaining := p.total_cpu_needed
      cpu_consumed := 0
      blocked_time := 0
      first_run_time := -1
      finish_time := -1
      next_io_index := 0 }

/-- `eat_cpu(p, dt, &taken, &io_dur)` of the C program: consume up to `dt`
CPU from `p`.  Returns the updated process, `taken`, and `io_dur`
(`-1` when no I/O event was triggered, the event's `duration` otherwise).
The C body reads `p->io_events[p->next_io_index]` only under the guard
`next_io_index < io_count`; the `getD` default is never used. -/
def eat_cpu (p : Process) (dt : ℚ) : Process × ℚ × ℚ :=
  if p.next_io_index < p.io_events.length then
    let ev := p.io_events.getD p.next_io_index ⟨0, 0⟩
    let cpu_until_io := ev.when_cpu - p.cpu_consumed
    if cpu_until_io ≤ EPS then
      ({ p with
          next_io_index := p.next_io_index + 1
          blocked_time := p.blocked_time + ev.duration },
        0, ev.duration)
    else
      let take := min (min dt cpu_until_io) p.remaining
      let c1 := p.cpu_consumed + take
      if |c1 - ev.when_cpu| < TRIG ∨ c1 > ev.when_cpu - EPS then
        ({ p with
            cpu_consumed := c1
            remaining := p.remaining - take
            next_io_index := p.next_io_index + 1
            blocked_time := p.blocked_time + ev.duration },
          take, ev.duration)
      else
        ({ p with cpu_consumed := c1, remaining := p.remaining - take },
          take, -1)
  else
    let take := min dt p.remaining
    ({ p with cpu_consumed := p.cpu_consumed + take, remaining := p.remaining - take },
      take, -1)

/-- `is_done(p)`: the process is finished when `remaining <= EPS`. -/
def is_done (p : Process) : Bool :=
  decide (p.remaining ≤ EPS)

/-- `fill_result(r, p)` of the C program, together with the `strcpy` of the
name that every policy performs immediately afterwards. -/
def fill_result (p : Process) : Result :=
  { name := p.name
    Elapsed := if p.finish_time < 0 then 0 else p.finish_time
    CPU := p.cpu_consumed
    BLOCKED := p.blocked_time
    FirstRun := if p.first_run_time < 0 then 0 else p.first_run_time }

/-- The inner `while (!is_done(p))` loop shared by `run_fifo` and `run_sjf`:
repeatedly `eat_cpu(p, p->remaining)`, adding `taken` and then any I/O
duration to the clock, until the process is done. -/
def fifo_one (p : Process) (t : ℚ) : ℕ → Option (Process × ℚ)
  | 0 => if is_done p then some (p, t) else none
  | fuel + 1 =>
    if is_done p then some (p, t)
    else
      let r := eat_cpu p p.remaining
      let t1 := t + r.2.1
      let t2 := if 0 ≤ r.2.2 then t1 + r.2.2 else t1
      fifo_one r.1 t2 fuel

/-- The body of `run_fifo` after cloning: run each process to completion in
list order, recording its first-run time at selection and its finish time
(the clock value) when it completes.  Returns the metrics records in
emission order, the final process states, and the final clock. -/
def fifo_body (fuel : ℕ) : List Process → ℚ → List Result → List Process →
    Option (List Result × List Process × ℚ)
  | [], t, accR, accP => some (accR.reverse, accP.reverse, t)
  | p :: rest, t, accR, accP =>
    let p0 := if p.first_run_time < 0 then { p with first_run_time := t } else p
    match fifo_one p0 t fuel with
    | none => none
    | some (p1, t1) =>
      let p2 := { p1 with finish_time := t1 }
      fifo_body fuel rest t1 (fill_result p2 :: accR) (p2 :: accP)

/-- `run_fifo`: clone, then run in definition order. -/
def run_fifo (orig : List Process) (fuel : ℕ) :
    Option (List Result × List Process × ℚ) :=
  fifo_body fuel (clone_processes orig) 0 [] []

/-- The comparison relation of `cmp_total_cpu`: ascending `total_cpu_needed`. -/
def leTotal (a b : Process) : Prop :=
  a.total_cpu_needed ≤ b.total_cpu_needed

instance : DecidableRel leTotal := fun a b =>
  inferInstanceAs (Decidable (a.total_cpu_needed ≤ b.total_cpu_needed))

/-- The full guarantee `qsort(procs, n, sizeof(Process), cmp_total_cpu)`
gives about its output: a permutation of the input that is sorted by
`total_cpu_needed`. ISO C (and glibc, whose `qsort` is not stable) leave
the relative order of elements with equal keys unspecified, so theorems
about SJF quantify over every list satisfying this relation. -/
def qsortResult (l sorted : List Process) : Prop :=
  sorted.Perm l ∧ List.Sorted leTotal sorted

instance (l sorted : List Process) : Decidable (qsortResult l sorted) :=
  inferInstanceAs (Decidable (sorted.Perm l ∧ List.Sorted leTotal sorted))

/-- The body of `run_sjf` after its `qsort` call: the same loop as
`run_fifo`, run on the sorted clones. `sorted` stands for any
qsort-admissible reordering of `clone_processes orig` (see
`qsortResult`). -/
def run_sjf_sorted (sorted : List Process) (fuel : ℕ) :
    Option (List Result × List Process × ℚ) :=
  fifo_body fuel sorted 0 [] []

/-- All ways of inserting `a` into a list (auxiliary for `permsOf`). -/
def insertsOf (a : Process) : List Process → List (List Process)
  | [] => [[a]]
  | b :: l => (a :: b :: l) :: (insertsOf a l).map (b :: ·)

/-- An executable enumeration of all permutations of `l`, used to decide
properties quantified over every qsort-admissible order of a concrete
scenario; `mem_permsOf_of_perm` shows it is complete. -/
def permsOf : List Process → List (List Process)
  | [] => [[]]
  | a :: l => (permsOf l).flatMap (insertsOf a)

/-- Outcome of the round-robin loop: a normal result, the out-of-bounds
write that `queue[qend++]` performs once `qend` has reached the buffer
capacity (undefined behaviour in the C program), or fuel exhaustion of
the embedding. -/
inductive RunOutcome where
  | ok (res : List Result) (finals : List Process) (clock : ℚ)
  | overflow
  | outOfFuel
deriving Repr, DecidableEq

/-- The loop of `run_rr`, with the C queue's exact bookkeeping: the queue
is a malloc'd array of `cap = 2 * n` process pointers whose read index
`qstart` and write index `qend` only grow (popped slots are never reused),
so the live queue is `queue[qstart..qend)` — modelled by the list — and
`qend` counts the enqueues performed so far. Each iteration pops the head,
records its first-run time if unset, consumes up to a quantum, and
advances the clock by `taken` and then by any I/O duration; a process that
is not done is re-enqueued at the tail by `queue[qend++] = p`, an
out-of-bounds write (`overflow`) once `qend` has reached `cap`; a finished
process gets `finish_time` stamped and one metrics record emitted. -/
def rr_loop : ℕ → List Process → ℕ → ℕ → ℚ → List Result → List Process →
    RunOutcome
  | _, [], _, _, t, accR, accP => .ok accR.reverse accP.reverse t
  | 0, _ :: _, _, _, _, _, _ => .outOfFuel
  | fuel + 1, p :: rest, qend, cap, t, accR, accP =>
    let p0 := if p.first_run_time < 0 then { p with first_run_time := t } else p
    let r := eat_cpu p0 QUANTUM
    let t1 := t + r.2.1
    let t2 := if 0 ≤ r.2.2 then t1 + r.2.2 else t1
    if is_done r.1 then
      let p2 := { r.1 with finish_time := t2 }
      rr_loop fuel rest qend cap t2 (fill_result p2 :: accR) (p2 :: accP)
    else
      if qend < cap then
        rr_loop fuel (rest ++ [r.1]) (qend + 1) cap t2 accR accP
      else
        .overflow

/-- `run_rr`: clone, enqueue everyone in definition order (the initial
fill leaves `qend = n`; the buffer capacity is `2 * n`), loop. -/
def run_rr (orig : List Process) (fuel : ℕ) : RunOutcome :=
  rr_loop fuel (clone_processes orig) orig.length (2 * orig.length) 0 [] []

/-- The demotion test of `run_mlfq`:
`fabs(taken - QUANTUM) < 1e-9 || taken > QUANTUM - 1e-9`. -/
def demote_cond (taken : ℚ) : Bool :=
  decide (|taken - QUANTUM| < EPS) || decide (taken > QUANTUM - EPS)

/-- The next queue level chosen by `run_mlfq` for a process that is not done:
demote to `qidx + 1` when the full quantum was used, capped at the lowest
level 2; otherwise stay. -/
def mlfq_next_level (qidx : ℕ) (taken : ℚ) : ℕ :=
  if demote_cond taken then (if qidx < 2 then qidx + 1 else qidx) else qidx

/-- Select the highest-priority non-empty queue: the level index, its head,
and the three queues with that head removed. -/
def pick3 (q0 q1 q2 : List Process) :
    Option (ℕ × Process × (List Process × List Process × List Process)) :=
  match q0, q1, q2 with
  | p :: r, _, _ => some (0, p, (r, q1, q2))
  | [], p :: r, _ => some (1, p, ([], r, q2))
  | [], [], p :: r => some (2, p, ([], [], r))
  | [], [], [] => none

/-- Enqueue `p` at the tail of queue `lvl` among the three level queues. -/
def enq3 (qs : List Process × List Process × List Process) (lvl : ℕ)
    (p : Process) : List Process × List Process × List Process :=
  if lvl = 0 then (qs.1 ++ [p], qs.2.1, qs.2.2)
  else if lvl = 1 then (qs.1, qs.2.1 ++ [p], qs.2.2)
  else (qs.1, qs.2.1, qs.2.2 ++ [p])

/-- The loop of `run_mlfq`: take the head of the highest non-empty level,
consume up to a quantum, advance the clock by `taken` then by any I/O
duration; when done emit a record, otherwise enqueue at the tail of
`mlfq_next_level`. -/
def mlfq_loop : ℕ → List Process → List Process → List Process → ℚ →
    List Result → List Process → Option (List Result × List Process × ℚ)
  | 0, q0, q1, q2, t, accR, accP =>
    if q0 = [] ∧ q1 = [] ∧ q2 = [] then some (accR.reverse, accP.reverse, t)
    else none
  | fuel + 1, q0, q1, q2, t, accR, accP =>
    match pick3 q0 q1 q2 with
    | none => some (accR.reverse, accP.reverse, t)
    | some (qidx, p, qs) =>
      let p0 := if p.first_run_time < 0 then { p with first_run_time := t } else p
      let r := eat_cpu p0 QUANTUM
      let t1 := t + r.2.1
      let t2 := if 0 ≤ r.2.2 then t1 + r.2.2 else t1
      if is_done r.1 then
        let p2 := { r.1 with finish_time := t2 }
        mlfq_loop fuel qs.1 qs.2.1 qs.2.2 t2 (fill_result p2 :: accR) (p2 :: accP)
      else
        let nq := mlfq_next_level qidx r.2.1
        let qs2 := enq3 qs nq r.1
        mlfq_loop fuel qs2.1 qs2.2.1 qs2.2.2 t2 accR accP

/-- `run_mlfq`: clone, put everyone in level 0 in definition order, loop. -/
def run_mlfq (orig : List Process) (fuel : ℕ) :
    Option (List Result × List Process × ℚ) :=
  mlfq_loop fuel (clone_processes orig) [] [] 0 [] []

/-- The closed set of scheduling policies the program accepts. -/
inductive Policy
  | fifo
  | sjf
  | rr
  | mlfq
deriving Repr, DecidableEq

/-- A process definition as built by the `make_scenarioN` factories: only
`name`, `total_cpu_needed` and the I/O list are meaningful (the C code
leaves the runtime fields uninitialised until `clone_processes` resets
them; here they get inert defaults). -/
def mkDef (name : String) (total : ℚ) (ios : List IOEvent) : Process :=
  { name := name
    total_cpu_needed := total
    io_events := ios
    remaining := 0
    cpu_consumed := 0
    blocked_time := 0
    first_run_time := -1
    finish_time := -1
    next_io_index := 0 }

/-- `make_scenario1`: A 10, B 15, C 20, no I/O. -/
def scenario1 : List Process :=
  [mkDef "A" 10 [], mkDef "B" 15 [], mkDef "C" 20 []]

/-- `make_scenario2`: A 5, B 10, C 4, D 2, E 3, F 15, no I/O. -/
def scenario2 : List Process :=
  [mkDef "A" 5 [], mkDef "B" 10 [], mkDef "C" 4 [],
   mkDef "D" 2 [], mkDef "E" 3 [], mkDef "F" 15 []]

/-- `make_scenario3`: three processes of total 5 with I/O events. -/
def scenario3 : List Process :=
  [mkDef "A" 5 [⟨1, 0.5⟩, ⟨3, 0.7⟩],
   mkDef "B" 5 [⟨2, 0.4⟩],
   mkDef "C" 5 [⟨0.5, 0.2⟩, ⟨2.5, 1⟩]]

/-- `make_scenario4`: three processes of total 6 with I/O events. -/
def scenario4 : List Process :=
  [mkDef "A" 6 [⟨1.2, 0.6⟩, ⟨4, 0.8⟩],
   mkDef "B" 6 [⟨3.5, 0.5⟩],
   mkDef "C" 6 [⟨0.8, 0.3⟩, ⟨2, 0.4⟩, ⟨4.5, 0.6⟩]]

/-- `make_scenario(scen, &n)`: the four built-in scenarios; `none` models
the NULL return for any other identifier. -/
def make_scenario (scen : Int) : Option (List Process) :=
  if scen = 1 then some scenario1
  else if scen = 2 then some scenario2
  else if scen = 3 then some scenario3
  else if scen = 4 then some scenario4
  else none

/-- Digit-accumulation part of C `atoi`. -/
def atoiDigits : List Char → Int → Int
  | [], acc => acc
  | c :: cs, acc =>
    if c.isDigit then atoiDigits cs (acc * 10 + (c.toNat - 48 : Int))
    else acc

/-- C `atoi`: skip leading whitespace, optional sign, then the longest
digit run; 0 when there are no digits. -/
def atoi (s : String) : Int :=
  let cs := s.toList.dropWhile Char.isWhitespace
  match cs with
  | '-' :: rest => - atoiDigits rest 0
  | '+' :: rest => atoiDigits rest 0
  | _ => atoiDigits cs 0

/-- The names accepted by the `strcmp` chain of `main`. -/
def policyOfString (s : String) : Option Policy :=
  if s = "fifo" then some .fifo
  else if s = "sjf" then some .sjf
  else if s = "rr" then some .rr
  else if s = "mlfq" then some .mlfq
  else none

/-- The argument handling of `main`, as a function from the full argument
vector (`argv[0]` included) to the exit code together with the number of
simulation runs performed (calls to a `run_*` function).  Mirrors the
control flow of the source: missing arguments exit 1 at once; the scenario
is validated (via `make_scenario`) before the first run; an unrecognised
policy name is detected on run 0, before any `run_*` call; otherwise the
`repeat` count (default 3, clamped to at least 1) runs are performed and
the exit code is 0. -/
def mainModel (args : List String) : Int × ℕ :=
  if args.length < 3 then (1, 0)
  else
    let alg := args.getD 1 ""
    let scen := atoi (args.getD 2 "")
    let rep0 := if 4 ≤ args.length then atoi (args.getD 3 "") else 3
    let rep := if rep0 < 1 then 1 else rep0
    match make_scenario scen with
    | none => (1, 0)
    | some _ =>
      match policyOfString alg with
      | none => (1, 0)
      | some _ => (0, rep.toNat)

/-- The I/O event `eat_cpu` inspects: `p->io_events[p->next_io_index]`.
Meaningful only when `next_io_index < io_events.length` (the C code reads
it only under that guard). -/
def pendingEv (p : Process) : IOEvent :=
  p.io_events.getD p.next_io_index ⟨0, 0⟩

/-- All I/O durations of a process are non-negative (true of every built-in
scenario; the clock arguments below need it). -/
def DurOK (p : Process) : Prop :=
  ∀ ev ∈ p.io_events, 0 ≤ ev.duration

instance : DecidablePred DurOK := fun p =>
  inferInstanceAs (Decidable (∀ ev ∈ p.io_events, 0 ≤ ev.duration))

/-- Statement predicate: the run succeeded and every final process state
has consumed its whole demand (within `EPS`) and has `remaining = 0`. -/
def ConservedRun (o : Option (List Result × List Process × ℚ)) : Prop :=
  match o with
  | none => False
  | some (_, finals, _) =>
    ∀ p ∈ finals, |p.cpu_consumed - p.total_cpu_needed| ≤ EPS ∧ p.remaining = 0

instance : DecidablePred ConservedRun := fun o =>
  match o with
  | none => inferInstanceAs (Decidable False)
  | some (_, finals, _) =>
    inferInstanceAs
      (Decidable (∀ p ∈ finals,
        |p.cpu_consumed - p.total_cpu_needed| ≤ EPS ∧ p.remaining = 0))

/-- Statement predicate: the run succeeded and emitted exactly one metrics
record per process of `names` (its record names are a permutation of
`names`). -/
def CompleteRun (names : List String)
    (o : Option (List Result × List Process × ℚ)) : Prop :=
  match o with
  | none => False
  | some (res, _, _) => (res.map Result.name).Perm names

instance (names : List String) : DecidablePred (CompleteRun names) := fun o =>
  match o with
  | none => inferInstanceAs (Decidable False)
  | some (res, _, _) =>
    inferInstanceAs (Decidable ((res.map Result.name).Perm names))

/-- Invariant carried by every queued process at clock `t`: non-negative
remaining work, and a first-run time that is either unset (negative
sentinel) or between 0 and `t`. -/
def QOK (t : ℚ) (p : Process) : Prop :=
  0 ≤ p.remaining ∧
    (p.first_run_time < 0 ∨ (0 ≤ p.first_run_time ∧ p.first_run_time ≤ t))

/-- Invariant of an emitted metrics record at clock `t`:
`0 ≤ FirstRun ≤ Elapsed ≤ t`. -/
def ROK (t : ℚ) (r : Result) : Prop :=
  0 ≤ r.FirstRun ∧ r.FirstRun ≤ r.Elapsed ∧ r.Elapsed ≤ t

/- The Batteries implementation of `Rat` marks its arithmetic
`@[irreducible]`; re-enable unfolding so that concrete runs of the model
evaluate with `decide`. -/
attribute [local semireducible] Rat.add Rat.sub Rat.mul Rat.ofScientific

lemma EPS_pos : 0 < EPS := by decide

lemma EPS_nonneg : 0 ≤ EPS := le_of_lt EPS_pos

/-- Branch of `eat_cpu` with no pending I/O event. -/
lemma eat_cpu_no_pending (p : Process) (dt : ℚ)
    (h : ¬ p.next_io_index < p.io_events.length) :
    eat_cpu p dt =
      ({ p with
          cpu_consumed := p.cpu_consumed + min dt p.remaining
          remaining := p.remaining - min dt p.remaining },
        min dt p.remaining, -1) := by
  simp only [eat_cpu, if_neg h]

/-- Branch of `eat_cpu` where the pending threshold is already reached:
immediate I/O, zero CPU. -/
lemma eat_cpu_immediate (p : Process) (dt : ℚ)
    (hio : p.next_io_index < p.io_events.length)
    (himm : (pendingEv p).when_cpu - p.cpu_consumed ≤ EPS) :
    eat_cpu p dt =
      ({ p with
          next_io_index := p.next_io_index + 1
          blocked_time := p.blocked_time + (pendingEv p).duration },
        0, (pendingEv p).duration) := by
  unfold pendingEv at himm ⊢
  simp only [eat_cpu, if_pos hio, if_pos himm]

/-- Branch of `eat_cpu` that consumes CPU and then triggers the pending
I/O event. -/
lemma eat_cpu_consume_trigger (p : Process) (dt : ℚ)
    (hio : p.next_io_index < p.io_events.length)
    (himm : ¬ (pendingEv p).when_cpu - p.cpu_consumed ≤ EPS)
    (htr :
      |p.cpu_consumed + min (min dt ((pendingEv p).when_cpu - p.cpu_consumed)) p.remaining
          - (pendingEv p).when_cpu| < TRIG ∨
        p.cpu_consumed + min (min dt ((pendingEv p).when_cpu - p.cpu_consumed)) p.remaining >
          (pendingEv p).when_cpu - EPS) :
    eat_cpu p dt =
      ({ p with
          cpu_consumed :=
            p.cpu_consumed + min (min dt ((pendingEv p).when_cpu - p.cpu_consumed)) p.remaining
          remaining :=
            p.remaining - min (min dt ((pendingEv p).when_cpu - p.cpu_consumed)) p.remaining
          next_io_index := p.next_io_index + 1
          blocked_time := p.blocked_time + (pendingEv p).duration },
        min (min dt ((pendingEv p).when_cpu - p.cpu_consumed)) p.remaining,
        (pendingEv p).duration) := by
  unfold pendingEv at himm htr ⊢
  simp only [eat_cpu, if_pos hio, if_neg himm, if_pos htr]

/-- Branch of `eat_cpu` that consumes CPU without reaching the pending
I/O threshold. -/
lemma eat_cpu_consume_no_trigger (p : Process) (dt : ℚ)
    (hio : p.next_io_index < p.io_events.length)
    (himm : ¬ (pendingEv p).when_cpu - p.cpu_consumed ≤ EPS)
    (htr :
      ¬ (|p.cpu_consumed + min (min dt ((pendingEv p).when_cpu - p.cpu_consumed)) p.remaining
          - (pendingEv p).when_cpu| < TRIG ∨
        p.cpu_consumed + min (min dt ((pendingEv p).when_cpu - p.cpu_consumed)) p.remaining >
          (pendingEv p).when_cpu - EPS)) :
    eat_cpu p dt =
      ({ p with
          cpu_consumed :=
            p.cpu_consumed + min (min dt ((pendingEv p).when_cpu - p.cpu_consumed)) p.remaining
          remaining :=
            p.remaining - min (min dt ((pendingEv p).when_cpu - p.cpu_consumed)) p.remaining },
        min (min dt ((pendingEv p).when_cpu - p.cpu_consumed)) p.remaining, -1) := by
  unfold pendingEv at himm htr ⊢
  simp only [eat_cpu, if_pos hio, if_neg himm, if_neg htr]

/-- The event `eat_cpu` reads is a member of the I/O list when the index is
in range. -/
lemma pendingEv_mem (p : Process) (hio : p.next_io_index < p.io_events.length) :
    pendingEv p ∈ p.io_events := by
  unfold pendingEv
  rw [List.getD_eq_getElem p.io_events _ hio]
  exact List.getElem_mem hio

/-- `eat_cpu` never touches the static fields nor the timing fields of the
process. -/
lemma eat_cpu_fields (p : Process) (dt : ℚ) :
    (eat_cpu p dt).1.io_events = p.io_events ∧
    (eat_cpu p dt).1.name = p.name ∧
    (eat_cpu p dt).1.total_cpu_needed = p.total_cpu_needed ∧
    (eat_cpu p dt).1.first_run_time = p.first_run_time ∧
    (eat_cpu p dt).1.finish_time = p.finish_time := by
  by_cases hio : p.next_io_index < p.io_events.length
  · by_cases himm : (pendingEv p).when_cpu - p.cpu_consumed ≤ EPS
    · rw [eat_cpu_immediate p dt hio himm]
      exact ⟨rfl, rfl, rfl, rfl, rfl⟩
    · by_cases htr :
        |p.cpu_consumed + min (min dt ((pendingEv p).when_cpu - p.cpu_consumed)) p.remaining
            - (pendingEv p).when_cpu| < TRIG ∨
          p.cpu_consumed + min (min dt ((pendingEv p).when_cpu - p.cpu_consumed)) p.remaining >
            (pendingEv p).when_cpu - EPS
      · rw [eat_cpu_consume_trigger p dt hio himm htr]
        exact ⟨rfl, rfl, rfl, rfl, rfl⟩
      · rw [eat_cpu_consume_no_trigger p dt hio himm htr]
        exact ⟨rfl, rfl, rfl, rfl, rfl⟩
  · rw [eat_cpu_no_pending p dt hio]
    exact ⟨rfl, rfl, rfl, rfl, rfl⟩

/-- Bounds of one consumption step: `0 ≤ taken ≤ dt` and the remaining
work stays non-negative. -/
lemma eat_cpu_bounds (p : Process) (dt : ℚ) (hdt : 0 ≤ dt)
    (h0 : 0 ≤ p.remaining) :
    0 ≤ (eat_cpu p dt).2.1 ∧ (eat_cpu p dt).2.1 ≤ dt ∧
      0 ≤ (eat_cpu p dt).1.remaining := by
  by_cases hio : p.next_io_index < p.io_events.length
  · by_cases himm : (pendingEv p).when_cpu - p.cpu_consumed ≤ EPS
    · rw [eat_cpu_immediate p dt hio himm]
      exact ⟨le_refl 0, hdt, h0⟩
    · have hcu : 0 ≤ (pendingEv p).when_cpu - p.cpu_consumed :=
        le_of_lt (lt_of_le_of_lt EPS_nonneg (lt_of_not_le himm))
      have htk : 0 ≤ min (min dt ((pendingEv p).when_cpu - p.cpu_consumed)) p.remaining :=
        le_min (le_min hdt hcu) h0
      have htd : min (min dt ((pendingEv p).when_cpu - p.cpu_consumed)) p.remaining ≤ dt :=
        le_trans (min_le_left _ _) (min_le_left _ _)
      have hrem :
          0 ≤ p.remaining -
            min (min dt ((pendingEv p).when_cpu - p.cpu_consumed)) p.remaining :=
        sub_nonneg.mpr (min_le_right _ _)
      by_cases htr :
        |p.cpu_consumed + min (min dt ((pendingEv p).when_cpu - p.cpu_consumed)) p.remaining
            - (pendingEv p).when_cpu| < TRIG ∨
          p.cpu_consumed + min (min dt ((pendingEv p).when_cpu - p.cpu_consumed)) p.remaining >
            (pendingEv p).when_cpu - EPS
      · rw [eat_cpu_consume_trigger p dt hio himm htr]
        exact ⟨htk, htd, hrem⟩
      · rw [eat_cpu_consume_no_trigger p dt hio himm htr]
        exact ⟨htk, htd, hrem⟩
  · rw [eat_cpu_no_pending p dt hio]
    exact ⟨le_min hdt h0, min_le_left _ _, sub_nonneg.mpr (min_le_right _ _)⟩

/-- The reported I/O duration is either the no-I/O sentinel `-1` or a
non-negative duration (when all durations of the process are). -/
lemma eat_cpu_io (p : Process) (dt : ℚ) (hD : DurOK p) :
    (eat_cpu p dt).2.2 = -1 ∨ 0 ≤ (eat_cpu p dt).2.2 := by
  by_cases hio : p.next_io_index < p.io_events.length
  · have hd : 0 ≤ (pendingEv p).duration := hD _ (pendingEv_mem p hio)
    by_cases himm : (pendingEv p).when_cpu - p.cpu_consumed ≤ EPS
    · rw [eat_cpu_immediate p dt hio himm]
      exact Or.inr hd
    · by_cases htr :
        |p.cpu_consumed + min (min dt ((pendingEv p).when_cpu - p.cpu_consumed)) p.remaining
            - (pendingEv p).when_cpu| < TRIG ∨
          p.cpu_consumed + min (min dt ((pendingEv p).when_cpu - p.cpu_consumed)) p.remaining >
            (pendingEv p).when_cpu - EPS
      · rw [eat_cpu_consume_trigger p dt hio himm htr]
        exact Or.inr hd
      · rw [eat_cpu_consume_no_trigger p dt hio himm htr]
        exact Or.inl rfl
  · rw [eat_cpu_no_pending p dt hio]
    exact Or.inl rfl

/-- The I/O index never moves backwards and advances by at most one, only
when it was in range. -/
lemma eat_cpu_index (p : Process) (dt : ℚ) :
    (eat_cpu p dt).1.next_io_index = p.next_io_index ∨
      ((eat_cpu p dt).1.next_io_index = p.next_io_index + 1 ∧
        p.next_io_index < p.io_events.length) := by
  by_cases hio : p.next_io_index < p.io_events.length
  · by_cases himm : (pendingEv p).when_cpu - p.cpu_consumed ≤ EPS
    · rw [eat_cpu_immediate p dt hio himm]
      exact Or.inr ⟨rfl, hio⟩
    · by_cases htr :
        |p.cpu_consumed + min (min dt ((pendingEv p).when_cpu - p.cpu_consumed)) p.remaining
            - (pendingEv p).when_cpu| < TRIG ∨
          p.cpu_consumed + min (min dt ((pendingEv p).when_cpu - p.cpu_consumed)) p.remaining >
            (pendingEv p).when_cpu - EPS
      · rw [eat_cpu_consume_trigger p dt hio himm htr]
        exact Or.inr ⟨rfl, hio⟩
      · rw [eat_cpu_consume_no_trigger p dt hio himm htr]
        exact Or.inl rfl
  · rw [eat_cpu_no_pending p dt hio]
    exact Or.inl rfl

/-- C1: the consumption step `eat_cpu` with budget `dt > 0` on a state with
non-negative remaining work behaves as specified: with a pending I/O event
whose threshold is already within `EPS`, it consumes zero CPU, advances the
I/O index by one, accumulates the blocked time and reports the duration;
otherwise it consumes `min(dt, cpu_until_io, remaining)` and triggers the
event exactly when the new `cpu_consumed` is at or past `when_cpu` within
the program's tolerances; with no pending event it consumes
`min(dt, remaining)` and reports no I/O. In all cases `0 ≤ taken ≤ dt` and
the I/O index advances by at most one. -/
theorem C1_consumption_step (p : Process) (dt : ℚ) (p1 : Process) (tk io : ℚ)
    (hdt : 0 < dt) (h0 : 0 ≤ p.remaining)
    (h : eat_cpu p dt = (p1, tk, io)) :
    (0 ≤ tk ∧ tk ≤ dt ∧ p1.next_io_index ≤ p.next_io_index + 1) ∧
    (p.next_io_index < p.io_events.length →
      ((pendingEv p).when_cpu - p.cpu_consumed ≤ EPS →
        tk = 0 ∧ p1.next_io_index = p.next_io_index + 1 ∧
        p1.blocked_time = p.blocked_time + (pendingEv p).duration ∧
        io = (pendingEv p).duration ∧
        p1.cpu_consumed = p.cpu_consumed ∧ p1.remaining = p.remaining) ∧
      (EPS < (pendingEv p).when_cpu - p.cpu_consumed →
        tk = min (min dt ((pendingEv p).when_cpu - p.cpu_consumed)) p.remaining ∧
        p1.cpu_consumed = p.cpu_consumed + tk ∧
        p1.remaining = p.remaining - tk ∧
        ((p1.next_io_index = p.next_io_index + 1 ∧
          p1.blocked_time = p.blocked_time + (pendingEv p).duration ∧
          io = (pendingEv p).duration) ↔
          (|p.cpu_consumed + tk - (pendingEv p).when_cpu| < TRIG ∨
            p.cpu_consumed + tk > (pendingEv p).when_cpu - EPS)))) ∧
    (¬ p.next_io_index < p.io_events.length →
      tk = min dt p.remaining ∧ io = -1 ∧
      p1.next_io_index = p.next_io_index ∧
      p1.cpu_consumed = p.cpu_consumed + tk ∧
      p1.remaining = p.remaining - tk ∧
      p1.blocked_time = p.blocked_time) := by
  have hbounds := eat_cpu_bounds p dt (le_of_lt hdt) h0
  have hidx := eat_cpu_index p dt
  rw [h] at hbounds hidx
  refine ⟨⟨hbounds.1, hbounds.2.1, ?_⟩, ?_, ?_⟩
  · rcases hidx with he | ⟨he, _⟩
    · rw [he]; exact Nat.le_succ _
    · rw [he]
  · intro hio
    constructor
    · intro himm
      rw [eat_cpu_immediate p dt hio himm] at h
      injection h with h1 h23
      injection h23 with h2 h3
      subst h1; subst h2; subst h3
      exact ⟨rfl, rfl, rfl, rfl, rfl, rfl⟩
    · intro hgt
      have himm : ¬ (pendingEv p).when_cpu - p.cpu_consumed ≤ EPS := not_le.mpr hgt
      by_cases htr :
        |p.cpu_consumed + min (min dt ((pendingEv p).when_cpu - p.cpu_consumed)) p.remaining
            - (pendingEv p).when_cpu| < TRIG ∨
          p.cpu_consumed + min (min dt ((pendingEv p).when_cpu - p.cpu_consumed)) p.remaining >
            (pendingEv p).when_cpu - EPS
      · rw [eat_cpu_consume_trigger p dt hio himm htr] at h
        injection h with h1 h23
        injection h23 with h2 h3
        subst h1; subst h2; subst h3
        exact ⟨rfl, rfl, rfl, iff_of_true ⟨rfl, rfl, rfl⟩ htr⟩
      · rw [eat_cpu_consume_no_trigger p dt hio himm htr] at h
        injection h with h1 h23
        injection h23 with h2 h3
        subst h1; subst h2; subst h3
        refine ⟨rfl, rfl, rfl, iff_of_false ?_ htr⟩
        intro hcon
        exact Nat.ne_of_lt (Nat.lt_succ_self p.next_io_index) hcon.1
  · intro hio
    rw [eat_cpu_no_pending p dt hio] at h
    injection h with h1 h23
    injection h23 with h2 h3
    subst h1; subst h2; subst h3
    exact ⟨rfl, rfl, rfl, rfl, rfl, rfl⟩

/-- Witness for C1 at a concrete input: process A of scenario 3 (total 5,
first I/O threshold at 1.0) freshly cloned, budget `dt = 5`: the step takes
`min(5, 1, 5) = 1`, reaches the threshold and triggers the I/O event. -/
theorem C1_consumption_step_witness :
    (0 : ℚ) < 5 ∧
      (0 : ℚ) ≤ ({ mkDef "A" 5 [⟨1, 0.5⟩, ⟨3, 0.7⟩] with remaining := 5 } : Process).remaining ∧
      (0 ≤ (1 : ℚ) ∧ (1 : ℚ) ≤ 5 ∧
        ({ mkDef "A" 5 [⟨1, 0.5⟩, ⟨3, 0.7⟩] with
            remaining := 4, cpu_consumed := 1, blocked_time := 0.5,
            next_io_index := 1 } : Process).next_io_index ≤
          ({ mkDef "A" 5 [⟨1, 0.5⟩, ⟨3, 0.7⟩] with remaining := 5 } : Process).next_io_index + 1) :=
  ⟨by decide, by decide,
    (C1_consumption_step
      { mkDef "A" 5 [⟨1, 0.5⟩, ⟨3, 0.7⟩] with remaining := 5 } 5
      { mkDef "A" 5 [⟨1, 0.5⟩, ⟨3, 0.7⟩] with
          remaining := 4, cpu_consumed := 1, blocked_time := 0.5,
          next_io_index := 1 } 1 0.5
      (by decide) (by decide) (by decide)).1⟩

/-- C10: `eat_cpu` with a positive budget preserves the runtime-state
invariant `remaining = total_cpu_needed - cpu_consumed ≥ 0` (established by
`clone_processes`), so `cpu_consumed` never exceeds `total_cpu_needed`:
the consumed amount is always capped at `remaining`. -/
theorem C10_remaining_invariant (p : Process) (dt : ℚ)
    (hdt : 0 < dt) (hinv : p.remaining = p.total_cpu_needed - p.cpu_consumed)
    (h0 : 0 ≤ p.remaining) :
    (eat_cpu p dt).1.remaining =
        (eat_cpu p dt).1.total_cpu_needed - (eat_cpu p dt).1.cpu_consumed ∧
      0 ≤ (eat_cpu p dt).1.remaining ∧
      (eat_cpu p dt).1.cpu_consumed ≤ (eat_cpu p dt).1.total_cpu_needed ∧
      (eat_cpu p dt).1.total_cpu_needed = p.total_cpu_needed := by
  have hb := eat_cpu_bounds p dt (le_of_lt hdt) h0
  have hinv2 :
      (eat_cpu p dt).1.remaining =
        (eat_cpu p dt).1.total_cpu_needed - (eat_cpu p dt).1.cpu_consumed ∧
      (eat_cpu p dt).1.total_cpu_needed = p.total_cpu_needed := by
    by_cases hio : p.next_io_index < p.io_events.length
    · by_cases himm : (pendingEv p).when_cpu - p.cpu_consumed ≤ EPS
      · rw [eat_cpu_immediate p dt hio himm]
        exact ⟨hinv, rfl⟩
      · by_cases htr :
          |p.cpu_consumed + min (min dt ((pendingEv p).when_cpu - p.cpu_consumed)) p.remaining
              - (pendingEv p).when_cpu| < TRIG ∨
            p.cpu_consumed + min (min dt ((pendingEv p).when_cpu - p.cpu_consumed)) p.remaining >
              (pendingEv p).when_cpu - EPS
        · rw [eat_cpu_consume_trigger p dt hio himm htr]
          refine ⟨?_, rfl⟩
          show p.remaining - _ = p.total_cpu_needed - (p.cpu_consumed + _)
          rw [hinv]; ring
        · rw [eat_cpu_consume_no_trigger p dt hio himm htr]
          refine ⟨?_, rfl⟩
          show p.remaining - _ = p.total_cpu_needed - (p.cpu_consumed + _)
          rw [hinv]; ring
    · rw [eat_cpu_no_pending p dt hio]
      refine ⟨?_, rfl⟩
      show p.remaining - _ = p.total_cpu_needed - (p.cpu_consumed + _)
      rw [hinv]; ring
  refine ⟨hinv2.1, hb.2.2, ?_, hinv2.2⟩
  have := hb.2.2
  rw [hinv2.1] at this
  linarith

/-- Witness for C10 at a concrete input: a freshly cloned scenario 1
process A (total 10, `remaining = 10`, `cpu_consumed = 0`) and a budget
of 3: the invariant is preserved. -/
theorem C10_remaining_invariant_witness :
    (0 : ℚ) < 3 ∧
      (eat_cpu { mkDef "A" 10 [] with remaining := 10 } 3).1.remaining =
          (eat_cpu { mkDef "A" 10 [] with remaining := 10 } 3).1.total_cpu_needed -
            (eat_cpu { mkDef "A" 10 [] with remaining := 10 } 3).1.cpu_consumed ∧
      0 ≤ (eat_cpu { mkDef "A" 10 [] with remaining := 10 } 3).1.remaining ∧
      (eat_cpu { mkDef "A" 10 [] with remaining := 10 } 3).1.cpu_consumed ≤
          (eat_cpu { mkDef "A" 10 [] with remaining := 10 } 3).1.total_cpu_needed ∧
      (eat_cpu { mkDef "A" 10 [] with remaining := 10 } 3).1.total_cpu_needed =
        ({ mkDef "A" 10 [] with remaining := 10 } : Process).total_cpu_needed := by
  refine ⟨by decide, ?_⟩
  exact C10_remaining_invariant { mkDef "A" 10 [] with remaining := 10 } 3
    (by decide) (by decide) (by decide)

/-- `a :: l` is one of the insertions of `a` into `l`. -/
lemma mem_insertsOf_self (a : Process) (l : List Process) :
    (a :: l) ∈ insertsOf a l := by
  cases l with
  | nil => exact List.mem_singleton.mpr rfl
  | cons b t => exact List.mem_cons_self _ _

/-- Any list containing `a` is an insertion of `a` into that list with one
occurrence of `a` erased. -/
lemma mem_insertsOf_erase (a : Process) :
    ∀ l : List Process, a ∈ l → l ∈ insertsOf a (l.erase a) := by
  intro l
  induction l with
  | nil => intro h; exact absurd h (List.not_mem_nil a)
  | cons b t ih =>
    intro h
    by_cases hba : b = a
    · subst hba
      rw [List.erase_cons_head]
      exact mem_insertsOf_self b t
    · have hat : a ∈ t := by
        rcases List.mem_cons.mp h with h | h
        · exact absurd h.symm hba
        · exact h
      have hbeq : (b == a) = false := by
        simp [hba]
      rw [List.erase_cons, hbeq]
      simp only [Bool.false_eq_true, if_false]
      show b :: t ∈ insertsOf a (b :: t.erase a)
      unfold insertsOf
      exact List.mem_cons_of_mem _ (List.mem_map_of_mem _ (ih hat))

/-- Completeness of the enumeration: every permutation of `l` occurs in
`permsOf l`. -/
lemma mem_permsOf_of_perm : ∀ {l l' : List Process}, l'.Perm l → l' ∈ permsOf l := by
  intro l
  induction l with
  | nil =>
    intro l' h
    rw [List.perm_nil.mp h]
    exact List.mem_singleton.mpr rfl
  | cons a t ih =>
    intro l' h
    have ha : a ∈ l' := h.mem_iff.mpr (List.mem_cons_self a t)
    have h2 : (l'.erase a).Perm t := by
      have he := h.erase a
      rwa [List.erase_cons_head] at he
    unfold permsOf
    exact List.mem_flatMap.mpr ⟨l'.erase a, ih h2, mem_insertsOf_erase a l' ha⟩

/-- Reduce a property of every qsort-admissible order of `l` to a
decidable check over the finite enumeration `permsOf l`. -/
lemma qsortResult_cases {P : List Process → Prop} (l : List Process)
    (h : ∀ l' ∈ permsOf l, List.Sorted leTotal l' → P l') :
    ∀ l', qsortResult l l' → P l' :=
  fun l' hq => h l' (mem_permsOf_of_perm hq.1) hq.2

set_option maxRecDepth 100000 in
/-- C3: scenario 1 (A:10, B:15, C:20, no I/O) under FIFO yields exactly the
metrics records Elapsed = A:10, B:25, C:45; CPU = 10/15/20; BLOCKED = 0;
FirstRun = A:0, B:10, C:25. -/
theorem C3_scenario1_fifo :
    (run_fifo scenario1 20).map (fun o => o.1) =
      some [⟨"A", 10, 10, 0, 0⟩, ⟨"B", 25, 15, 0, 10⟩, ⟨"C", 45, 20, 0, 25⟩] := by
  decide

/-- The demotion test of `run_mlfq` holds exactly when `taken` is strictly
above `QUANTUM - EPS`. -/
lemma demote_cond_iff (tk : ℚ) : demote_cond tk = true ↔ QUANTUM - EPS < tk := by
  unfold demote_cond
  simp only [Bool.or_eq_true, decide_eq_true_eq]
  constructor
  · rintro (habs | hgt)
    · have h := (abs_lt.mp habs).1
      linarith
    · exact hgt
  · exact fun h => Or.inr h

set_option maxRecDepth 100000 in
/-- C5 counterexample: at `taken = QUANTUM - EPS` exactly, the claim's
condition `taken ≥ QUANTUM - ε` holds (with level 0 below the lowest
level 2), yet `run_mlfq`'s level-selection keeps the process at level 0
instead of demoting it to level 1: the code demotes only when `taken` is
strictly greater than `QUANTUM - EPS`. -/
theorem C5_counterexample :
    mlfq_next_level 0 (QUANTUM - EPS) = 0 ∧
      QUANTUM - EPS ≤ QUANTUM - EPS ∧ (0 : ℕ) < 2 := by
  decide

/-- C5 (amended): a process's queue level never decreases and never leaves
`0..2`: after a consumption step of a not-done process, the level moves to
`level + 1` exactly when `taken` is strictly greater than `QUANTUM - EPS`
(rather than `≥`) and the level is below 2, stays at 2 if already there,
and stays put when the quantum was not fully used. -/
theorem C5_mlfq_demotion (qidx : ℕ) (tk : ℚ) (hq : qidx ≤ 2) :
    qidx ≤ mlfq_next_level qidx tk ∧
    mlfq_next_level qidx tk ≤ 2 ∧
    (mlfq_next_level qidx tk = qidx + 1 ↔ (QUANTUM - EPS < tk ∧ qidx < 2)) ∧
    (¬ QUANTUM - EPS < tk → mlfq_next_level qidx tk = qidx) ∧
    (qidx = 2 → mlfq_next_level qidx tk = 2) := by
  unfold mlfq_next_level
  by_cases hd : demote_cond tk = true
  · rw [if_pos hd]
    by_cases hlt : qidx < 2
    · rw [if_pos hlt]
      exact ⟨Nat.le_succ qidx, by omega,
        iff_of_true rfl ⟨(demote_cond_iff tk).mp hd, hlt⟩,
        fun hn => absurd ((demote_cond_iff tk).mp hd) hn,
        fun h2 => by omega⟩
    · rw [if_neg hlt]
      have h2 : qidx = 2 := by omega
      exact ⟨le_refl qidx, hq,
        iff_of_false (by omega) (fun hc => hlt hc.2),
        fun _ => rfl, fun _ => h2⟩
  · rw [if_neg hd]
    refine ⟨le_refl qidx, hq,
      iff_of_false (by omega) ?_, fun _ => rfl, fun h2 => h2⟩
    rintro ⟨hgt, _⟩
    exact hd ((demote_cond_iff tk).mpr hgt)

set_option maxRecDepth 100000 in
/-- Witness for the amended C5 at a concrete input: level 0, a full quantum
`taken = QUANTUM`: the process is demoted to level 1. -/
theorem C5_mlfq_demotion_witness :
    (0 : ℕ) ≤ 2 ∧
      0 ≤ mlfq_next_level 0 QUANTUM ∧
      mlfq_next_level 0 QUANTUM ≤ 2 ∧
      (mlfq_next_level 0 QUANTUM = 0 + 1 ↔ (QUANTUM - EPS < QUANTUM ∧ (0 : ℕ) < 2)) ∧
      (¬ QUANTUM - EPS < QUANTUM → mlfq_next_level 0 QUANTUM = 0) ∧
      ((0 : ℕ) = 2 → mlfq_next_level 0 QUANTUM = 2) :=
  ⟨by decide, C5_mlfq_demotion 0 QUANTUM (by decide)⟩

/-- Recording the first-run time changes no other field. -/
lemma first_run_set_fields (p : Process) (t : ℚ) :
    (if p.first_run_time < 0 then { p with first_run_time := t } else p).name = p.name ∧
    (if p.first_run_time < 0 then { p with first_run_time := t } else p).total_cpu_needed =
      p.total_cpu_needed ∧
    (if p.first_run_time < 0 then { p with first_run_time := t } else p).io_events =
      p.io_events ∧
    (if p.first_run_time < 0 then { p with first_run_time := t } else p).remaining =
      p.remaining ∧
    (if p.first_run_time < 0 then { p with first_run_time := t } else p).finish_time =
      p.finish_time := by
  split <;> exact ⟨rfl, rfl, rfl, rfl, rfl⟩

/-- An empty round-robin queue terminates at once with the accumulated
records, whatever the enqueue counter and capacity are. -/
lemma rr_loop_nil (fuel qend cap : ℕ) (t : ℚ) (accR : List Result)
    (accP : List Process) :
    rr_loop fuel [] qend cap t accR accP =
      RunOutcome.ok accR.reverse accP.reverse t := by
  cases fuel <;> rfl

/-- One unfolding of the round-robin loop on a non-empty queue. -/
lemma rr_loop_cons (fuel : ℕ) (p : Process) (rest : List Process)
    (qend cap : ℕ) (t : ℚ) (accR : List Result) (accP : List Process) :
    rr_loop (fuel + 1) (p :: rest) qend cap t accR accP =
      (let p0 := if p.first_run_time < 0 then { p with first_run_time := t } else p
       let r := eat_cpu p0 QUANTUM
       let t2 := if 0 ≤ r.2.2 then t + r.2.1 + r.2.2 else t + r.2.1
       if is_done r.1 then
         rr_loop fuel rest qend cap t2
           (fill_result { r.1 with finish_time := t2 } :: accR)
           ({ r.1 with finish_time := t2 } :: accP)
       else if qend < cap then
         rr_loop fuel (rest ++ [r.1]) (qend + 1) cap t2 accR accP
       else RunOutcome.overflow) := rfl

/-- A round-robin step on a process that is not yet done, while the queue
buffer still has room: re-enqueue at the tail (the enqueue counter grows
by one), emit nothing, and advance the clock by `taken` and then the I/O
duration. -/
lemma rr_step_not_done (fuel : ℕ) (p : Process) (rest : List Process)
    (qend cap : ℕ) (t : ℚ) (accR : List Result) (accP : List Process)
    (p1 : Process) (tk io : ℚ)
    (heat : eat_cpu (if p.first_run_time < 0 then { p with first_run_time := t } else p)
      QUANTUM = (p1, tk, io))
    (hnd : is_done p1 = false) (hcap : qend < cap) :
    rr_loop (fuel + 1) (p :: rest) qend cap t accR accP =
      rr_loop fuel (rest ++ [p1]) (qend + 1) cap
        (if 0 ≤ io then t + tk + io else t + tk) accR accP := by
  rw [rr_loop_cons]
  simp only [heat, hnd, Bool.false_eq_true, if_false, if_pos hcap]

/-- A round-robin step on a process that is not done once the enqueue
counter has reached the buffer capacity: the C code's `queue[qend++] = p`
writes past the allocated queue. -/
lemma rr_step_overflow (fuel : ℕ) (p : Process) (rest : List Process)
    (qend cap : ℕ) (t : ℚ) (accR : List Result) (accP : List Process)
    (p1 : Process) (tk io : ℚ)
    (heat : eat_cpu (if p.first_run_time < 0 then { p with first_run_time := t } else p)
      QUANTUM = (p1, tk, io))
    (hnd : is_done p1 = false) (hcap : ¬ qend < cap) :
    rr_loop (fuel + 1) (p :: rest) qend cap t accR accP =
      RunOutcome.overflow := by
  rw [rr_loop_cons]
  simp only [heat, hnd, Bool.false_eq_true, if_false, if_neg hcap]

/-- A round-robin step on a process that finishes emits exactly one record
(carrying the updated clock as finish time) and does not re-enqueue it. -/
lemma rr_step_done (fuel : ℕ) (p : Process) (rest : List Process)
    (qend cap : ℕ) (t : ℚ) (accR : List Result) (accP : List Process)
    (p1 : Process) (tk io : ℚ)
    (heat : eat_cpu (if p.first_run_time < 0 then { p with first_run_time := t } else p)
      QUANTUM = (p1, tk, io))
    (hd : is_done p1 = true) :
    rr_loop (fuel + 1) (p :: rest) qend cap t accR accP =
      rr_loop fuel rest qend cap (if 0 ≤ io then t + tk + io else t + tk)
        (fill_result { p1 with finish_time := if 0 ≤ io then t + tk + io else t + tk } :: accR)
        ({ p1 with finish_time := if 0 ≤ io then t + tk + io else t + tk } :: accP) := by
  rw [rr_loop_cons]
  simp only [heat, hd, if_true]

set_option maxRecDepth 1000000 in
/-- C4 (code bug): `run_rr`'s re-enqueue `queue[qend++] = p` overflows the
queue buffer of capacity `2 * n` on every built-in scenario — for
scenario 1 the buffer holds `2 * 3 = 6` pointers, the initial fill uses 3,
and the fourth iteration's re-enqueue (the seventh enqueue overall, at
clock 2.0) writes out of bounds. The claimed discipline — head dequeued,
`dt = QUANTUM`, clock advanced by `taken` then by the I/O duration, tail
re-enqueue when not done, one record and no re-enqueue when done,
termination on an empty queue — holds of the loop exactly while
`qend < cap` (`rr_step_not_done`, `rr_step_done`, `rr_loop_nil`,
`rr_step_overflow`). -/
theorem C4_rr_queue_overflow :
    run_rr scenario1 200 = RunOutcome.overflow ∧
    run_rr scenario2 200 = RunOutcome.overflow ∧
    run_rr scenario3 200 = RunOutcome.overflow ∧
    run_rr scenario4 200 = RunOutcome.overflow ∧
    2 * scenario1.length = 6 := by
  decide

lemma QUANTUM_nonneg : 0 ≤ QUANTUM := by decide

/-- The queue invariant is monotone in the clock. -/
lemma QOK_mono {t t' : ℚ} (h : t ≤ t') (p : Process) (hp : QOK t p) :
    QOK t' p := by
  refine ⟨hp.1, ?_⟩
  rcases hp.2 with hneg | ⟨h0, h1⟩
  · exact Or.inl hneg
  · exact Or.inr ⟨h0, le_trans h1 h⟩

/-- The record invariant is monotone in the clock. -/
lemma ROK_mono {t t' : ℚ} (h : t ≤ t') (r : Result) (hr : ROK t r) :
    ROK t' r :=
  ⟨hr.1, hr.2.1, le_trans hr.2.2 h⟩

/-- Facts about one scheduling turn of the quantum-based loops: first-run
stamping followed by `eat_cpu` with budget `QUANTUM` starting from a valid
state at clock `t ≥ 0`. -/
lemma sched_step (p : Process) (t : ℚ) (p1 : Process) (tk io : ℚ)
    (ht : 0 ≤ t) (hp : QOK t p)
    (heat : eat_cpu (if p.first_run_time < 0 then { p with first_run_time := t } else p)
      QUANTUM = (p1, tk, io)) :
    0 ≤ tk ∧
    t ≤ (if 0 ≤ io then t + tk + io else t + tk) ∧
    0 ≤ p1.remaining ∧
    0 ≤ p1.first_run_time ∧ p1.first_run_time ≤ t := by
  have hrem0 :
      0 ≤ (if p.first_run_time < 0 then { p with first_run_time := t } else p).remaining := by
    rw [(first_run_set_fields p t).2.2.2.1]
    exact hp.1
  have hb := eat_cpu_bounds
    (if p.first_run_time < 0 then { p with first_run_time := t } else p)
    QUANTUM QUANTUM_nonneg hrem0
  rw [heat] at hb
  have hfr1 : p1.first_run_time =
      (if p.first_run_time < 0 then { p with first_run_time := t } else p).first_run_time := by
    have := (eat_cpu_fields
      (if p.first_run_time < 0 then { p with first_run_time := t } else p) QUANTUM).2.2.2.1
    rw [heat] at this
    exact this
  have hfr : 0 ≤ p1.first_run_time ∧ p1.first_run_time ≤ t := by
    rw [hfr1]
    by_cases hneg : p.first_run_time < 0
    · rw [if_pos hneg]
      exact ⟨ht, le_refl t⟩
    · rw [if_neg hneg]
      rcases hp.2 with h | h
      · exact absurd h hneg
      · exact h
  refine ⟨hb.1, ?_, hb.2.2, hfr⟩
  split
  · rename_i hio
    linarith [hb.1]
  · linarith [hb.1]

/-- The inner FIFO loop only moves the clock forward, keeps the remaining
work non-negative, and leaves name, first-run and finish times intact. -/
lemma fifo_one_spec :
    ∀ (fuel : ℕ) (p : Process) (t : ℚ) (p1 : Process) (t1 : ℚ),
      0 ≤ p.remaining →
      fifo_one p t fuel = some (p1, t1) →
      t ≤ t1 ∧ 0 ≤ p1.remaining ∧
        p1.first_run_time = p.first_run_time ∧ p1.name = p.name ∧
        p1.finish_time = p.finish_time := by
  intro fuel
  induction fuel with
  | zero =>
    intro p t p1 t1 h0 h
    cases hId : is_done p with
    | true =>
      simp only [fifo_one, hId, if_true] at h
      injection h with h'
      injection h' with h1 h2
      subst h1; subst h2
      exact ⟨le_refl t, h0, rfl, rfl, rfl⟩
    | false =>
      simp only [fifo_one, hId, Bool.false_eq_true, if_false] at h
      exact Option.noConfusion h
  | succ fuel ih =>
    intro p t p1 t1 h0 h
    cases hId : is_done p with
    | true =>
      simp only [fifo_one, hId, if_true] at h
      injection h with h'
      injection h' with h1 h2
      subst h1; subst h2
      exact ⟨le_refl t, h0, rfl, rfl, rfl⟩
    | false =>
      simp only [fifo_one, hId, Bool.false_eq_true, if_false] at h
      have hb := eat_cpu_bounds p p.remaining h0 h0
      have hf := eat_cpu_fields p p.remaining
      have hstep := ih (eat_cpu p p.remaining).1
        (if 0 ≤ (eat_cpu p p.remaining).2.2 then
          t + (eat_cpu p p.remaining).2.1 + (eat_cpu p p.remaining).2.2
        else t + (eat_cpu p p.remaining).2.1) p1 t1 hb.2.2 h
      have ht2 : t ≤ (if 0 ≤ (eat_cpu p p.remaining).2.2 then
          t + (eat_cpu p p.remaining).2.1 + (eat_cpu p p.remaining).2.2
        else t + (eat_cpu p p.remaining).2.1) := by
        split
        · rename_i hio
          linarith [hb.1]
        · linarith [hb.1]
      exact ⟨le_trans ht2 hstep.1, hstep.2.1,
        hstep.2.2.1.trans hf.2.2.2.1, hstep.2.2.2.1.trans hf.2.1,
        hstep.2.2.2.2.trans hf.2.2.2.2⟩

/-- Invariant of the FIFO/SJF outer loop: starting from a valid
configuration, a successful run moves the clock forward and every emitted
record satisfies `0 ≤ FirstRun ≤ Elapsed ≤ tEnd`; records appear in
non-decreasing `Elapsed` order and carry exactly the finish times of the
final process states. -/
lemma fifo_body_invariant :
    ∀ (l : List Process) (fuel : ℕ) (t : ℚ) (accR : List Result)
      (accP : List Process) (res : List Result) (finals : List Process) (tEnd : ℚ),
      0 ≤ t →
      (∀ p ∈ l, QOK t p) →
      (∀ r ∈ accR, ROK t r) →
      accR.Pairwise (fun a b => b.Elapsed ≤ a.Elapsed) →
      accR.map Result.Elapsed = accP.map Process.finish_time →
      fifo_body fuel l t accR accP = some (res, finals, tEnd) →
      t ≤ tEnd ∧ (∀ r ∈ res, ROK tEnd r) ∧
        res.Pairwise (fun a b => a.Elapsed ≤ b.Elapsed) ∧
        res.map Result.Elapsed = finals.map Process.finish_time := by
  intro l
  induction l with
  | nil =>
    intro fuel t accR accP res finals tEnd ht _ hR hPW hmap h
    simp only [fifo_body] at h
    injection h with h'
    injection h' with h1 h23
    injection h23 with h2 h3
    subst h1; subst h2; subst h3
    refine ⟨le_refl t, ?_, ?_, ?_⟩
    · intro r hr
      exact hR r (List.mem_reverse.mp hr)
    · exact List.pairwise_reverse.mpr hPW
    · rw [List.map_reverse, List.map_reverse, hmap]
  | cons p rest ih =>
    intro fuel t accR accP res finals tEnd ht hQ hR hPW hmap h
    simp only [fifo_body] at h
    rcases hone : fifo_one
        (if p.first_run_time < 0 then { p with first_run_time := t } else p) t fuel with
      _ | ⟨p1, t1⟩
    · rw [hone] at h
      exact absurd h (by simp)
    · rw [hone] at h
      have hqp := hQ p (List.mem_cons_self p rest)
      have hrem0 :
          0 ≤ (if p.first_run_time < 0 then { p with first_run_time := t } else p).remaining := by
        rw [(first_run_set_fields p t).2.2.2.1]
        exact hqp.1
      have hone_spec := fifo_one_spec fuel _ t p1 t1 hrem0 hone
      have ht1 : t ≤ t1 := hone_spec.1
      have ht1n : 0 ≤ t1 := le_trans ht ht1
      have hfr : 0 ≤ p1.first_run_time ∧ p1.first_run_time ≤ t := by
        rw [hone_spec.2.2.1]
        by_cases hneg : p.first_run_time < 0
        · rw [if_pos hneg]
          exact ⟨ht, le_refl t⟩
        · rw [if_neg hneg]
          rcases hqp.2 with hc | hc
          · exact absurd hc hneg
          · exact hc
      have hfin_ne : ¬ t1 < 0 := not_lt.mpr ht1n
      have hEl : (fill_result { p1 with finish_time := t1 }).Elapsed = t1 := by
        unfold fill_result
        exact if_neg hfin_ne
      have hFr : (fill_result { p1 with finish_time := t1 }).FirstRun =
          p1.first_run_time := by
        unfold fill_result
        exact if_neg (not_lt.mpr hfr.1)
      have hrec : ROK t1 (fill_result { p1 with finish_time := t1 }) := by
        unfold ROK
        rw [hEl, hFr]
        exact ⟨hfr.1, le_trans hfr.2 ht1, le_refl t1⟩
      have hres := ih fuel t1 (fill_result { p1 with finish_time := t1 } :: accR)
        ({ p1 with finish_time := t1 } :: accP) res finals tEnd ht1n
        (fun q hq => QOK_mono ht1 q (hQ q (List.mem_cons_of_mem p hq)))
        (fun r hr => by
          rcases List.mem_cons.mp hr with hr | hr
          · rw [hr]; exact hrec
          · exact ROK_mono ht1 r (hR r hr))
        (List.pairwise_cons.mpr
          ⟨fun r hr => by rw [hEl]; exact le_trans (hR r hr).2.2 ht1, hPW⟩)
        (by
          simp only [List.map_cons]
          rw [hmap, hEl])
        h
      exact ⟨le_trans ht1 hres.1, hres.2.1, hres.2.2.1, hres.2.2.2⟩

/-- Invariant of the round-robin loop: analogous to `fifo_body_invariant`,
for runs that complete without overflowing the queue buffer. -/
lemma rr_loop_invariant :
    ∀ (fuel : ℕ) (q : List Process) (qend cap : ℕ) (t : ℚ) (accR : List Result)
      (accP : List Process) (res : List Result) (finals : List Process) (tEnd : ℚ),
      0 ≤ t →
      (∀ p ∈ q, QOK t p) →
      (∀ r ∈ accR, ROK t r) →
      accR.Pairwise (fun a b => b.Elapsed ≤ a.Elapsed) →
      accR.map Result.Elapsed = accP.map Process.finish_time →
      rr_loop fuel q qend cap t accR accP = RunOutcome.ok res finals tEnd →
      t ≤ tEnd ∧ (∀ r ∈ res, ROK tEnd r) ∧
        res.Pairwise (fun a b => a.Elapsed ≤ b.Elapsed) ∧
        res.map Result.Elapsed = finals.map Process.finish_time := by
  intro fuel
  induction fuel with
  | zero =>
    intro q qend cap t accR accP res finals tEnd ht hQ hR hPW hmap h
    cases q with
    | nil =>
      rw [rr_loop_nil] at h
      injection h with h1 h2 h3
      subst h1; subst h2; subst h3
      refine ⟨le_refl t, ?_, List.pairwise_reverse.mpr hPW, ?_⟩
      · intro r hr
        exact hR r (List.mem_reverse.mp hr)
      · rw [List.map_reverse, List.map_reverse, hmap]
    | cons p rest => exact absurd h (by simp [rr_loop])
  | succ fuel ih =>
    intro q qend cap t accR accP res finals tEnd ht hQ hR hPW hmap h
    cases q with
    | nil =>
      rw [rr_loop_nil] at h
      injection h with h1 h2 h3
      subst h1; subst h2; subst h3
      refine ⟨le_refl t, ?_, List.pairwise_reverse.mpr hPW, ?_⟩
      · intro r hr
        exact hR r (List.mem_reverse.mp hr)
      · rw [List.map_reverse, List.map_reverse, hmap]
    | cons p rest =>
      rcases heat : eat_cpu
          (if p.first_run_time < 0 then { p with first_run_time := t } else p)
          QUANTUM with ⟨p1, tk, io⟩
      have hstep := sched_step p t p1 tk io ht (hQ p (List.mem_cons_self p rest)) heat
      have ht2 : t ≤ (if 0 ≤ io then t + tk + io else t + tk) := hstep.2.1
      have ht2n : 0 ≤ (if 0 ≤ io then t + tk + io else t + tk) := le_trans ht ht2
      cases hdone : is_done p1 with
      | true =>
        rw [rr_step_done fuel p rest qend cap t accR accP p1 tk io heat hdone] at h
        have hfin_ne : ¬ (if 0 ≤ io then t + tk + io else t + tk) < 0 := not_lt.mpr ht2n
        have hEl : (fill_result { p1 with
            finish_time := if 0 ≤ io then t + tk + io else t + tk }).Elapsed =
            (if 0 ≤ io then t + tk + io else t + tk) := by
          unfold fill_result
          exact if_neg hfin_ne
        have hFr : (fill_result { p1 with
            finish_time := if 0 ≤ io then t + tk + io else t + tk }).FirstRun =
            p1.first_run_time := by
          unfold fill_result
          exact if_neg (not_lt.mpr hstep.2.2.2.1)
        have hrec : ROK (if 0 ≤ io then t + tk + io else t + tk)
            (fill_result { p1 with
              finish_time := if 0 ≤ io then t + tk + io else t + tk }) := by
          unfold ROK
          rw [hEl, hFr]
          exact ⟨hstep.2.2.2.1, le_trans hstep.2.2.2.2 ht2, le_refl _⟩
        have hres := ih rest qend cap (if 0 ≤ io then t + tk + io else t + tk)
          _ _ res finals tEnd ht2n
          (fun q hq => QOK_mono ht2 q (hQ q (List.mem_cons_of_mem p hq)))
          (fun r hr => by
            rcases List.mem_cons.mp hr with hr | hr
            · rw [hr]; exact hrec
            · exact ROK_mono ht2 r (hR r hr))
          (List.pairwise_cons.mpr
            ⟨fun r hr => by rw [hEl]; exact le_trans (hR r hr).2.2 ht2, hPW⟩)
          (by
            simp only [List.map_cons]
            rw [hmap, hEl])
          h
        exact ⟨le_trans ht2 hres.1, hres.2.1, hres.2.2.1, hres.2.2.2⟩
      | false =>
        by_cases hcap : qend < cap
        · rw [rr_step_not_done fuel p rest qend cap t accR accP p1 tk io
            heat hdone hcap] at h
          have hq1 : QOK (if 0 ≤ io then t + tk + io else t + tk) p1 :=
            ⟨hstep.2.2.1, Or.inr ⟨hstep.2.2.2.1, le_trans hstep.2.2.2.2 ht2⟩⟩
          have hres := ih (rest ++ [p1]) (qend + 1) cap
            (if 0 ≤ io then t + tk + io else t + tk)
            accR accP res finals tEnd ht2n
            (fun q hq => by
              rcases List.mem_append.mp hq with hq | hq
              · exact QOK_mono ht2 q (hQ q (List.mem_cons_of_mem p hq))
              · rw [List.mem_singleton.mp hq]
                exact hq1)
            (fun r hr => ROK_mono ht2 r (hR r hr))
            hPW
            hmap
            h
          exact ⟨le_trans ht2 hres.1, hres.2.1, hres.2.2.1, hres.2.2.2⟩
        · rw [rr_step_overflow fuel p rest qend cap t accR accP p1 tk io
            heat hdone hcap] at h
          exact absurd h (by simp)

/-- `pick3` returns the head of the highest non-empty level. -/
lemma pick3_cases (q0 q1 q2 : List Process) (qidx : ℕ) (p : Process)
    (qs : List Process × List Process × List Process)
    (h : pick3 q0 q1 q2 = some (qidx, p, qs)) :
    (q0 = p :: qs.1 ∧ q1 = qs.2.1 ∧ q2 = qs.2.2) ∨
    (q0 = [] ∧ qs.1 = [] ∧ q1 = p :: qs.2.1 ∧ q2 = qs.2.2) ∨
    (q0 = [] ∧ q1 = [] ∧ qs.1 = [] ∧ qs.2.1 = [] ∧ q2 = p :: qs.2.2) := by
  cases q0 with
  | cons a r0 =>
    simp only [pick3] at h
    injection h with h'
    injection h' with h1 h23
    injection h23 with h2 h3
    subst h2; subst h3
    exact Or.inl ⟨rfl, rfl, rfl⟩
  | nil =>
    cases q1 with
    | cons a r1 =>
      simp only [pick3] at h
      injection h with h'
      injection h' with h1 h23
      injection h23 with h2 h3
      subst h2; subst h3
      exact Or.inr (Or.inl ⟨rfl, rfl, rfl, rfl⟩)
    | nil =>
      cases q2 with
      | cons a r2 =>
        simp only [pick3] at h
        injection h with h'
        injection h' with h1 h23
        injection h23 with h2 h3
        subst h2; subst h3
        exact Or.inr (Or.inr ⟨rfl, rfl, rfl, rfl, rfl⟩)
      | nil => exact absurd h (by simp [pick3])

/-- Members of the queues after `enq3` are old members or the enqueued
process. -/
lemma enq3_mem (qs : List Process × List Process × List Process) (lvl : ℕ)
    (p x : Process) :
    (x ∈ (enq3 qs lvl p).1 → x ∈ qs.1 ∨ x = p) ∧
    (x ∈ (enq3 qs lvl p).2.1 → x ∈ qs.2.1 ∨ x = p) ∧
    (x ∈ (enq3 qs lvl p).2.2 → x ∈ qs.2.2 ∨ x = p) := by
  unfold enq3
  split_ifs <;>
    refine ⟨?_, ?_, ?_⟩ <;> intro hx <;>
    simp only [List.mem_append, List.mem_singleton] at hx ⊢ <;> tauto

/-- All MLFQ levels empty: the loop returns the accumulated records. -/
lemma mlfq_loop_empty (fuel : ℕ) (t : ℚ) (accR : List Result) (accP : List Process) :
    mlfq_loop fuel [] [] [] t accR accP = some (accR.reverse, accP.reverse, t) := by
  cases fuel with
  | zero => simp [mlfq_loop]
  | succ fuel => simp [mlfq_loop, pick3]

/-- An MLFQ step whose process finishes: emit the record, drop the
process. -/
lemma mlfq_step_done (fuel : ℕ) (q0 q1 q2 : List Process) (t : ℚ)
    (accR : List Result) (accP : List Process) (qidx : ℕ) (p : Process)
    (qs : List Process × List Process × List Process) (p1 : Process) (tk io : ℚ)
    (hpick : pick3 q0 q1 q2 = some (qidx, p, qs))
    (heat : eat_cpu (if p.first_run_time < 0 then { p with first_run_time := t } else p)
      QUANTUM = (p1, tk, io))
    (hd : is_done p1 = true) :
    mlfq_loop (fuel + 1) q0 q1 q2 t accR accP =
      mlfq_loop fuel qs.1 qs.2.1 qs.2.2 (if 0 ≤ io then t + tk + io else t + tk)
        (fill_result { p1 with
          finish_time := if 0 ≤ io then t + tk + io else t + tk } :: accR)
        ({ p1 with
          finish_time := if 0 ≤ io then t + tk + io else t + tk } :: accP) := by
  simp only [mlfq_loop, hpick, heat, hd, if_true]

/-- An MLFQ step whose process is not done: enqueue it at the tail of
`mlfq_next_level`. -/
lemma mlfq_step_not_done (fuel : ℕ) (q0 q1 q2 : List Process) (t : ℚ)
    (accR : List Result) (accP : List Process) (qidx : ℕ) (p : Process)
    (qs : List Process × List Process × List Process) (p1 : Process) (tk io : ℚ)
    (hpick : pick3 q0 q1 q2 = some (qidx, p, qs))
    (heat : eat_cpu (if p.first_run_time < 0 then { p with first_run_time := t } else p)
      QUANTUM = (p1, tk, io))
    (hnd : is_done p1 = false) :
    mlfq_loop (fuel + 1) q0 q1 q2 t accR accP =
      mlfq_loop fuel (enq3 qs (mlfq_next_level qidx tk) p1).1
        (enq3 qs (mlfq_next_level qidx tk) p1).2.1
        (enq3 qs (mlfq_next_level qidx tk) p1).2.2
        (if 0 ≤ io then t + tk + io else t + tk) accR accP := by
  simp only [mlfq_loop, hpick, heat, hnd, Bool.false_eq_true, if_false]

/-- Invariant of the MLFQ loop: analogous to `rr_loop_invariant`, carried
over the three level queues. -/
lemma mlfq_loop_invariant :
    ∀ (fuel : ℕ) (q0 q1 q2 : List Process) (t : ℚ) (accR : List Result)
      (accP : List Process) (res : List Result) (finals : List Process) (tEnd : ℚ),
      0 ≤ t →
      (∀ p ∈ q0, QOK t p) → (∀ p ∈ q1, QOK t p) → (∀ p ∈ q2, QOK t p) →
      (∀ r ∈ accR, ROK t r) →
      accR.Pairwise (fun a b => b.Elapsed ≤ a.Elapsed) →
      accR.map Result.Elapsed = accP.map Process.finish_time →
      mlfq_loop fuel q0 q1 q2 t accR accP = some (res, finals, tEnd) →
      t ≤ tEnd ∧ (∀ r ∈ res, ROK tEnd r) ∧
        res.Pairwise (fun a b => a.Elapsed ≤ b.Elapsed) ∧
        res.map Result.Elapsed = finals.map Process.finish_time := by
  intro fuel
  induction fuel with
  | zero =>
    intro q0 q1 q2 t accR accP res finals tEnd ht hQ0 hQ1 hQ2 hR hPW hmap h
    simp only [mlfq_loop] at h
    split_ifs at h with hcond
    · injection h with h'
      injection h' with h1 h23
      injection h23 with h2 h3
      subst h1; subst h2; subst h3
      refine ⟨le_refl t, ?_, List.pairwise_reverse.mpr hPW, ?_⟩
      · intro r hr
        exact hR r (List.mem_reverse.mp hr)
      · rw [List.map_reverse, List.map_reverse, hmap]
  | succ fuel ih =>
    intro q0 q1 q2 t accR accP res finals tEnd ht hQ0 hQ1 hQ2 hR hPW hmap h
    rcases hpick : pick3 q0 q1 q2 with _ | ⟨qidx, p, qs⟩
    · simp only [mlfq_loop, hpick] at h
      injection h with h'
      injection h' with h1 h23
      injection h23 with h2 h3
      subst h1; subst h2; subst h3
      refine ⟨le_refl t, ?_, List.pairwise_reverse.mpr hPW, ?_⟩
      · intro r hr
        exact hR r (List.mem_reverse.mp hr)
      · rw [List.map_reverse, List.map_reverse, hmap]
    · have hmem :
          QOK t p ∧ (∀ x ∈ qs.1, QOK t x) ∧ (∀ x ∈ qs.2.1, QOK t x) ∧
            (∀ x ∈ qs.2.2, QOK t x) := by
        rcases pick3_cases q0 q1 q2 qidx p qs hpick with
          ⟨h0, h1, h2⟩ | ⟨h0, hs0, h1, h2⟩ | ⟨h0, h1, hs0, hs1, h2⟩
        · subst h0
          refine ⟨hQ0 p (List.mem_cons_self _ _), ?_, ?_, ?_⟩
          · exact fun x hx => hQ0 x (List.mem_cons_of_mem _ hx)
          · rw [← h1]; exact hQ1
          · rw [← h2]; exact hQ2
        · subst h1
          refine ⟨hQ1 p (List.mem_cons_self _ _), ?_, ?_, ?_⟩
          · rw [hs0]; intro x hx; exact absurd hx (List.not_mem_nil x)
          · exact fun x hx => hQ1 x (List.mem_cons_of_mem _ hx)
          · rw [← h2]; exact hQ2
        · subst h2
          refine ⟨hQ2 p (List.mem_cons_self _ _), ?_, ?_, ?_⟩
          · rw [hs0]; intro x hx; exact absurd hx (List.not_mem_nil x)
          · rw [hs1]; intro x hx; exact absurd hx (List.not_mem_nil x)
          · exact fun x hx => hQ2 x (List.mem_cons_of_mem _ hx)
      rcases heat : eat_cpu
          (if p.first_run_time < 0 then { p with first_run_time := t } else p)
          QUANTUM with ⟨p1, tk, io⟩
      have hstep := sched_step p t p1 tk io ht hmem.1 heat
      have ht2 : t ≤ (if 0 ≤ io then t + tk + io else t + tk) := hstep.2.1
      have ht2n : 0 ≤ (if 0 ≤ io then t + tk + io else t + tk) := le_trans ht ht2
      cases hdone : is_done p1 with
      | true =>
        rw [mlfq_step_done fuel q0 q1 q2 t accR accP qidx p qs p1 tk io
          hpick heat hdone] at h
        have hfin_ne : ¬ (if 0 ≤ io then t + tk + io else t + tk) < 0 := not_lt.mpr ht2n
        have hEl : (fill_result { p1 with
            finish_time := if 0 ≤ io then t + tk + io else t + tk }).Elapsed =
            (if 0 ≤ io then t + tk + io else t + tk) := by
          unfold fill_result
          exact if_neg hfin_ne
        have hFr : (fill_result { p1 with
            finish_time := if 0 ≤ io then t + tk + io else t + tk }).FirstRun =
            p1.first_run_time := by
          unfold fill_result
          exact if_neg (not_lt.mpr hstep.2.2.2.1)
        have hrec : ROK (if 0 ≤ io then t + tk + io else t + tk)
            (fill_result { p1 with
              finish_time := if 0 ≤ io then t + tk + io else t + tk }) := by
          unfold ROK
          rw [hEl, hFr]
          exact ⟨hstep.2.2.2.1, le_trans hstep.2.2.2.2 ht2, le_refl _⟩
        have hres := ih qs.1 qs.2.1 qs.2.2 (if 0 ≤ io then t + tk + io else t + tk)
          _ _ res finals tEnd ht2n
          (fun x hx => QOK_mono ht2 x (hmem.2.1 x hx))
          (fun x hx => QOK_mono ht2 x (hmem.2.2.1 x hx))
          (fun x hx => QOK_mono ht2 x (hmem.2.2.2 x hx))
          (fun r hr => by
            rcases List.mem_cons.mp hr with hr | hr
            · rw [hr]; exact hrec
            · exact ROK_mono ht2 r (hR r hr))
          (List.pairwise_cons.mpr
            ⟨fun r hr => by rw [hEl]; exact le_trans (hR r hr).2.2 ht2, hPW⟩)
          (by
            simp only [List.map_cons]
            rw [hmap, hEl])
          h
        exact ⟨le_trans ht2 hres.1, hres.2.1, hres.2.2.1, hres.2.2.2⟩
      | false =>
        rw [mlfq_step_not_done fuel q0 q1 q2 t accR accP qidx p qs p1 tk io
          hpick heat hdone] at h
        have hq1 : QOK (if 0 ≤ io then t + tk + io else t + tk) p1 :=
          ⟨hstep.2.2.1, Or.inr ⟨hstep.2.2.2.1, le_trans hstep.2.2.2.2 ht2⟩⟩
        have hres := ih (enq3 qs (mlfq_next_level qidx tk) p1).1
          (enq3 qs (mlfq_next_level qidx tk) p1).2.1
          (enq3 qs (mlfq_next_level qidx tk) p1).2.2
          (if 0 ≤ io then t + tk + io else t + tk) accR accP res finals tEnd ht2n
          (fun x hx => by
            rcases (enq3_mem qs (mlfq_next_level qidx tk) p1 x).1 hx with hx | hx
            · exact QOK_mono ht2 x (hmem.2.1 x hx)
            · rw [hx]; exact hq1)
          (fun x hx => by
            rcases (enq3_mem qs (mlfq_next_level qidx tk) p1 x).2.1 hx with hx | hx
            · exact QOK_mono ht2 x (hmem.2.2.1 x hx)
            · rw [hx]; exact hq1)
          (fun x hx => by
            rcases (enq3_mem qs (mlfq_next_level qidx tk) p1 x).2.2 hx with hx | hx
            · exact QOK_mono ht2 x (hmem.2.2.2 x hx)
            · rw [hx]; exact hq1)
          (fun r hr => ROK_mono ht2 r (hR r hr))
          hPW
          hmap
          h
        exact ⟨le_trans ht2 hres.1, hres.2.1, hres.2.2.1, hres.2.2.2⟩

/-- Freshly cloned processes satisfy the queue invariant at clock 0 when
their demands are non-negative. -/
lemma clone_QOK (orig : List Process) (h : ∀ p ∈ orig, 0 ≤ p.total_cpu_needed) :
    ∀ p ∈ clone_processes orig, QOK 0 p := by
  intro p hp
  unfold clone_processes at hp
  rcases List.mem_map.mp hp with ⟨q, hq, rfl⟩
  exact ⟨h q hq, Or.inl (by norm_num)⟩

/-- C8 (code bug in the round-robin leg): the virtual clock is
non-decreasing across every step (each step adds `taken ≥ 0` and then a
non-negative I/O duration, and nothing else changes the clock), and each
record's `Elapsed` is exactly the finish time stamped from the clock at
the step where the process became done — so `0 ≤ FirstRun ≤ Elapsed ≤`
final clock for every record, and records appear in non-decreasing finish
order — for FIFO, for SJF under every qsort-admissible order, for MLFQ,
and for round robin whenever its run completes within the queue capacity;
on the built-in scenarios the round-robin queue overflows instead. -/
theorem C8_clock_monotone :
    (∀ (p : Process) (dt : ℚ) (p1 : Process) (tk io : ℚ),
      0 ≤ dt → 0 ≤ p.remaining → DurOK p →
      eat_cpu p dt = (p1, tk, io) →
      0 ≤ tk ∧ (io = -1 ∨ 0 ≤ io) ∧
        ∀ t : ℚ, t ≤ (if 0 ≤ io then t + tk + io else t + tk)) ∧
    (∀ (orig : List Process) (fuel : ℕ) (res : List Result)
        (finals : List Process) (tEnd : ℚ),
      (∀ p ∈ orig, 0 ≤ p.total_cpu_needed) →
      run_fifo orig fuel = some (res, finals, tEnd) →
      0 ≤ tEnd ∧
        (∀ r ∈ res, 0 ≤ r.FirstRun ∧ r.FirstRun ≤ r.Elapsed ∧ r.Elapsed ≤ tEnd) ∧
        res.Pairwise (fun a b => a.Elapsed ≤ b.Elapsed) ∧
        res.map Result.Elapsed = finals.map Process.finish_time) ∧
    (∀ (orig sorted : List Process) (fuel : ℕ) (res : List Result)
        (finals : List Process) (tEnd : ℚ),
      (∀ p ∈ orig, 0 ≤ p.total_cpu_needed) →
      qsortResult (clone_processes orig) sorted →
      run_sjf_sorted sorted fuel = some (res, finals, tEnd) →
      0 ≤ tEnd ∧
        (∀ r ∈ res, 0 ≤ r.FirstRun ∧ r.FirstRun ≤ r.Elapsed ∧ r.Elapsed ≤ tEnd) ∧
        res.Pairwise (fun a b => a.Elapsed ≤ b.Elapsed) ∧
        res.map Result.Elapsed = finals.map Process.finish_time) ∧
    (∀ (orig : List Process) (fuel : ℕ) (res : List Result)
        (finals : List Process) (tEnd : ℚ),
      (∀ p ∈ orig, 0 ≤ p.total_cpu_needed) →
      run_rr orig fuel = RunOutcome.ok res finals tEnd →
      0 ≤ tEnd ∧
        (∀ r ∈ res, 0 ≤ r.FirstRun ∧ r.FirstRun ≤ r.Elapsed ∧ r.Elapsed ≤ tEnd) ∧
        res.Pairwise (fun a b => a.Elapsed ≤ b.Elapsed) ∧
        res.map Result.Elapsed = finals.map Process.finish_time) ∧
    (∀ (orig : List Process) (fuel : ℕ) (res : List Result)
        (finals : List Process) (tEnd : ℚ),
      (∀ p ∈ orig, 0 ≤ p.total_cpu_needed) →
      run_mlfq orig fuel = some (res, finals, tEnd) →
      0 ≤ tEnd ∧
        (∀ r ∈ res, 0 ≤ r.FirstRun ∧ r.FirstRun ≤ r.Elapsed ∧ r.Elapsed ≤ tEnd) ∧
        res.Pairwise (fun a b => a.Elapsed ≤ b.Elapsed) ∧
        res.map Result.Elapsed = finals.map Process.finish_time) ∧
    run_rr scenario1 200 = RunOutcome.overflow := by
  have hnilR : ∀ t : ℚ, ∀ r ∈ ([] : List Result), ROK t r := fun _ r hr =>
    absurd hr (List.not_mem_nil r)
  refine ⟨?_, ?_, ?_, ?_, ?_, ?_⟩
  · intro p dt p1 tk io hdt h0 hD h
    have hb := eat_cpu_bounds p dt hdt h0
    have hio := eat_cpu_io p dt hD
    rw [h] at hb hio
    refine ⟨hb.1, hio, ?_⟩
    intro t
    split
    · rename_i hi
      linarith [hb.1]
    · linarith [hb.1]
  · intro orig fuel res finals tEnd htot hrun
    unfold run_fifo at hrun
    have hres := fifo_body_invariant (clone_processes orig) fuel 0 [] []
      res finals tEnd (le_refl 0) (clone_QOK orig htot) (hnilR 0)
      List.Pairwise.nil rfl hrun
    exact ⟨hres.1, fun r hr => hres.2.1 r hr, hres.2.2.1, hres.2.2.2⟩
  · intro orig sorted fuel res finals tEnd htot hq hrun
    unfold run_sjf_sorted at hrun
    have hQ : ∀ p ∈ sorted, QOK 0 p := fun p hp =>
      clone_QOK orig htot p (hq.1.mem_iff.mp hp)
    have hres := fifo_body_invariant sorted fuel 0 [] []
      res finals tEnd (le_refl 0) hQ (hnilR 0) List.Pairwise.nil rfl hrun
    exact ⟨hres.1, fun r hr => hres.2.1 r hr, hres.2.2.1, hres.2.2.2⟩
  · intro orig fuel res finals tEnd htot hrun
    unfold run_rr at hrun
    have hres := rr_loop_invariant fuel (clone_processes orig)
      orig.length (2 * orig.length) 0 [] []
      res finals tEnd (le_refl 0) (clone_QOK orig htot) (hnilR 0)
      List.Pairwise.nil rfl hrun
    exact ⟨hres.1, fun r hr => hres.2.1 r hr, hres.2.2.1, hres.2.2.2⟩
  · intro orig fuel res finals tEnd htot hrun
    unfold run_mlfq at hrun
    have hres := mlfq_loop_invariant fuel (clone_processes orig) [] [] 0 [] []
      res finals tEnd (le_refl 0) (clone_QOK orig htot)
      (fun p hp => absurd hp (List.not_mem_nil p))
      (fun p hp => absurd hp (List.not_mem_nil p))
      (hnilR 0) List.Pairwise.nil rfl hrun
    exact ⟨hres.1, fun r hr => hres.2.1 r hr, hres.2.2.1, hres.2.2.2⟩
  · decide

set_option maxRecDepth 100000 in
/-- Witness for C8 at concrete inputs: one `eat_cpu` step of a cloned
scenario 1 process with budget 1 (clock goes from 7 to 8), and the FIFO
run of scenario 1 (final clock 45, all records within bounds). -/
theorem C8_clock_monotone_witness :
    ((0 : ℚ) ≤ 1 ∧
      (0 : ℚ) ≤ ({ mkDef "A" 10 [] with remaining := 10 } : Process).remaining ∧
      DurOK { mkDef "A" 10 [] with remaining := 10 } ∧
      eat_cpu { mkDef "A" 10 [] with remaining := 10 } 1 =
        ({ mkDef "A" 10 [] with remaining := 9, cpu_consumed := 1 }, 1, -1) ∧
      (7 : ℚ) ≤ (if (0 : ℚ) ≤ -1 then 7 + 1 + -1 else 7 + 1)) ∧
    ((∀ p ∈ scenario1, 0 ≤ p.total_cpu_needed) ∧
      run_fifo scenario1 20 =
        some ([⟨"A", 10, 10, 0, 0⟩, ⟨"B", 25, 15, 0, 10⟩, ⟨"C", 45, 20, 0, 25⟩],
          [{ mkDef "A" 10 [] with cpu_consumed := 10, first_run_time := 0, finish_time := 10 },
            { mkDef "B" 15 [] with cpu_consumed := 15, first_run_time := 10, finish_time := 25 },
            { mkDef "C" 20 [] with cpu_consumed := 20, first_run_time := 25, finish_time := 45 }], 45) ∧
      (0 : ℚ) ≤ 45 ∧
      (∀ r ∈ [(⟨"A", 10, 10, 0, 0⟩ : Result), ⟨"B", 25, 15, 0, 10⟩,
          ⟨"C", 45, 20, 0, 25⟩],
        0 ≤ r.FirstRun ∧ r.FirstRun ≤ r.Elapsed ∧ r.Elapsed ≤ 45)) := by
  constructor
  · refine ⟨by decide, by decide, by decide, by decide, ?_⟩
    exact (C8_clock_monotone.1
      { mkDef "A" 10 [] with remaining := 10 } 1
      { mkDef "A" 10 [] with remaining := 9, cpu_consumed := 1 } 1 (-1)
      (by decide) (by decide) (by decide) (by decide)).2.2 7
  · refine ⟨by decide, by decide, ?_⟩
    have h := (C8_clock_monotone.2.1 scenario1 20
      [⟨"A", 10, 10, 0, 0⟩, ⟨"B", 25, 15, 0, 10⟩, ⟨"C", 45, 20, 0, 25⟩]
      [{ mkDef "A" 10 [] with cpu_consumed := 10, first_run_time := 0, finish_time := 10 },
        { mkDef "B" 15 [] with cpu_consumed := 15, first_run_time := 10, finish_time := 25 },
        { mkDef "C" 20 [] with cpu_consumed := 20, first_run_time := 25, finish_time := 45 }] 45 (by decide) (by decide))
    exact ⟨h.1, h.2.1⟩

set_option maxRecDepth 1000000 in
/-- C6 (code bug in the round-robin leg): conservation — every final
process state has consumed its whole demand (within `EPS`; here in fact
exactly) and has `remaining = 0` — holds on all four valid scenarios for
FIFO and MLFQ, and for SJF under every qsort-admissible order of each
scenario; the round-robin run instead overflows its queue buffer on every
scenario before any process completes, so it never produces final states
(undefined behaviour in the C program). -/
theorem C6_conservation :
    (ConservedRun (run_fifo scenario1 200) ∧ ConservedRun (run_fifo scenario2 200) ∧
      ConservedRun (run_fifo scenario3 200) ∧ ConservedRun (run_fifo scenario4 200)) ∧
    (ConservedRun (run_mlfq scenario1 200) ∧ ConservedRun (run_mlfq scenario2 200) ∧
      ConservedRun (run_mlfq scenario3 200) ∧ ConservedRun (run_mlfq scenario4 200)) ∧
    ((∀ l, qsortResult (clone_processes scenario1) l →
        ConservedRun (run_sjf_sorted l 200)) ∧
      (∀ l, qsortResult (clone_processes scenario2) l →
        ConservedRun (run_sjf_sorted l 200)) ∧
      (∀ l, qsortResult (clone_processes scenario3) l →
        ConservedRun (run_sjf_sorted l 200)) ∧
      (∀ l, qsortResult (clone_processes scenario4) l →
        ConservedRun (run_sjf_sorted l 200))) ∧
    (run_rr scenario1 200 = RunOutcome.overflow ∧
      run_rr scenario2 200 = RunOutcome.overflow ∧
      run_rr scenario3 200 = RunOutcome.overflow ∧
      run_rr scenario4 200 = RunOutcome.overflow) := by
  refine ⟨by decide, by decide,
    ⟨qsortResult_cases _ (by decide), qsortResult_cases _ (by decide),
      qsortResult_cases _ (by decide), qsortResult_cases _ (by decide)⟩,
    by decide⟩

set_option maxRecDepth 1000000 in
/-- Witness for C6's SJF conjuncts at a concrete order: the cloned
scenario 1 processes are themselves a qsort-admissible order (a sorted
permutation), and the run on that order conserves every process. -/
theorem C6_conservation_witness :
    qsortResult (clone_processes scenario1) (clone_processes scenario1) ∧
    ConservedRun (run_sjf_sorted (clone_processes scenario1) 200) :=
  ⟨by decide, C6_conservation.2.2.1.1 (clone_processes scenario1) (by decide)⟩

set_option maxRecDepth 1000000 in
/-- C7 (code bug in the round-robin leg): FIFO and MLFQ runs on every
valid scenario terminate (with the fuel shown) and emit exactly one
metrics record per process, and so do SJF runs under every
qsort-admissible order; the round-robin run instead overflows its queue
buffer on every scenario, so it does not terminate cleanly with one
record per process. The claimed progress mechanism does hold of the
consumption step: `remaining` strictly decreases on every CPU-consuming
step, a step of a not-done process with a positive budget either consumes
CPU or strictly advances `next_io_index`, and `next_io_index` never
exceeds `io_count`. -/
theorem C7_termination :
    (CompleteRun ["A", "B", "C"] (run_fifo scenario1 200) ∧
      CompleteRun ["A", "B", "C", "D", "E", "F"] (run_fifo scenario2 200) ∧
      CompleteRun ["A", "B", "C"] (run_fifo scenario3 200) ∧
      CompleteRun ["A", "B", "C"] (run_fifo scenario4 200) ∧
      CompleteRun ["A", "B", "C"] (run_mlfq scenario1 200) ∧
      CompleteRun ["A", "B", "C", "D", "E", "F"] (run_mlfq scenario2 200) ∧
      CompleteRun ["A", "B", "C"] (run_mlfq scenario3 200) ∧
      CompleteRun ["A", "B", "C"] (run_mlfq scenario4 200)) ∧
    ((∀ l, qsortResult (clone_processes scenario1) l →
        CompleteRun ["A", "B", "C"] (run_sjf_sorted l 200)) ∧
      (∀ l, qsortResult (clone_processes scenario2) l →
        CompleteRun ["A", "B", "C", "D", "E", "F"] (run_sjf_sorted l 200)) ∧
      (∀ l, qsortResult (clone_processes scenario3) l →
        CompleteRun ["A", "B", "C"] (run_sjf_sorted l 200)) ∧
      (∀ l, qsortResult (clone_processes scenario4) l →
        CompleteRun ["A", "B", "C"] (run_sjf_sorted l 200))) ∧
    (run_rr scenario1 200 = RunOutcome.overflow ∧
      run_rr scenario2 200 = RunOutcome.overflow ∧
      run_rr scenario3 200 = RunOutcome.overflow ∧
      run_rr scenario4 200 = RunOutcome.overflow) ∧
    (∀ (p : Process) (dt : ℚ), 0 < dt → is_done p = false →
      0 < (eat_cpu p dt).2.1 ∨
        (eat_cpu p dt).1.next_io_index = p.next_io_index + 1) ∧
    (∀ (p : Process) (dt : ℚ), 0 < (eat_cpu p dt).2.1 →
      (eat_cpu p dt).1.remaining < p.remaining) ∧
    (∀ (p : Process) (dt : ℚ), p.next_io_index ≤ p.io_events.length →
      (eat_cpu p dt).1.next_io_index ≤ p.io_events.length) := by
  refine ⟨by decide,
    ⟨qsortResult_cases _ (by decide), qsortResult_cases _ (by decide),
      qsortResult_cases _ (by decide), qsortResult_cases _ (by decide)⟩,
    by decide, ?_, ?_, ?_⟩
  · intro p dt hdt hnd
    have hrem : EPS < p.remaining := by
      have h := hnd
      unfold is_done at h
      exact not_le.mp (by simpa using h)
    have hrem0 : 0 < p.remaining := lt_of_le_of_lt EPS_nonneg hrem
    by_cases hio : p.next_io_index < p.io_events.length
    · by_cases himm : (pendingEv p).when_cpu - p.cpu_consumed ≤ EPS
      · right
        rw [eat_cpu_immediate p dt hio himm]
      · have hcu : 0 < (pendingEv p).when_cpu - p.cpu_consumed :=
          lt_of_le_of_lt EPS_nonneg (not_le.mp himm)
        by_cases htr :
          |p.cpu_consumed + min (min dt ((pendingEv p).when_cpu - p.cpu_consumed)) p.remaining
              - (pendingEv p).when_cpu| < TRIG ∨
            p.cpu_consumed + min (min dt ((pendingEv p).when_cpu - p.cpu_consumed)) p.remaining >
              (pendingEv p).when_cpu - EPS
        · left
          rw [eat_cpu_consume_trigger p dt hio himm htr]
          exact lt_min (lt_min hdt hcu) hrem0
        · left
          rw [eat_cpu_consume_no_trigger p dt hio himm htr]
          exact lt_min (lt_min hdt hcu) hrem0
    · left
      rw [eat_cpu_no_pending p dt hio]
      exact lt_min hdt hrem0
  · intro p dt htk
    by_cases hio : p.next_io_index < p.io_events.length
    · by_cases himm : (pendingEv p).when_cpu - p.cpu_consumed ≤ EPS
      · rw [eat_cpu_immediate p dt hio himm] at htk ⊢
        exact absurd htk (by norm_num)
      · by_cases htr :
          |p.cpu_consumed + min (min dt ((pendingEv p).when_cpu - p.cpu_consumed)) p.remaining
              - (pendingEv p).when_cpu| < TRIG ∨
            p.cpu_consumed + min (min dt ((pendingEv p).when_cpu - p.cpu_consumed)) p.remaining >
              (pendingEv p).when_cpu - EPS
        · rw [eat_cpu_consume_trigger p dt hio himm htr] at htk ⊢
          show p.remaining - _ < p.remaining
          linarith [htk]
        · rw [eat_cpu_consume_no_trigger p dt hio himm htr] at htk ⊢
          show p.remaining - _ < p.remaining
          linarith [htk]
    · rw [eat_cpu_no_pending p dt hio] at htk ⊢
      show p.remaining - _ < p.remaining
      linarith [htk]
  · intro p dt hle
    rcases eat_cpu_index p dt with he | ⟨he, hlt⟩
    · rw [he]; exact hle
    · rw [he]; omega

/-- Witness for C7's hypothesis-carrying conjuncts at concrete inputs: a
cloned scenario 1 process A with budget 1 makes CPU progress and keeps its
I/O index within bounds, and the cloned scenario 1 list is itself a
qsort-admissible SJF order with a complete run. -/
theorem C7_termination_witness :
    ((0 : ℚ) < 1 ∧ is_done ({ mkDef "A" 10 [] with remaining := 10 } : Process) = false ∧
      (0 < (eat_cpu { mkDef "A" 10 [] with remaining := 10 } 1).2.1 ∨
        (eat_cpu { mkDef "A" 10 [] with remaining := 10 } 1).1.next_io_index =
          ({ mkDef "A" 10 [] with remaining := 10 } : Process).next_io_index + 1)) ∧
    (({ mkDef "A" 10 [] with remaining := 10 } : Process).next_io_index ≤
        ({ mkDef "A" 10 [] with remaining := 10 } : Process).io_events.length ∧
      (eat_cpu { mkDef "A" 10 [] with remaining := 10 } 1).1.next_io_index ≤
        ({ mkDef "A" 10 [] with remaining := 10 } : Process).io_events.length) ∧
    (qsortResult (clone_processes scenario1) (clone_processes scenario1) ∧
      CompleteRun ["A", "B", "C"] (run_sjf_sorted (clone_processes scenario1) 200)) :=
  ⟨⟨by decide, by decide,
      C7_termination.2.2.2.1 { mkDef "A" 10 [] with remaining := 10 } 1
        (by decide) (by decide)⟩,
    ⟨by decide,
      C7_termination.2.2.2.2.2 { mkDef "A" 10 [] with remaining := 10 } 1 (by decide)⟩,
    ⟨by decide, C7_termination.2.1.1 (clone_processes scenario1) (by decide)⟩⟩

/-- C9: the command-line handling — fewer than two user arguments, an
unknown scenario id (`make_scenario` rejects everything outside 1..4) or
an unknown policy name (outside fifo/sjf/rr/mlfq) exits with code 1 before
any simulation run is performed (the run counter of the model is 0); with
valid arguments the exit code is 0 and the repeat count defaults to 3,
with supplied values below 1 clamped to 1. -/
theorem C9_cli (args : List String) :
    (args.length < 3 → mainModel args = (1, 0)) ∧
    (3 ≤ args.length → make_scenario (atoi (args.getD 2 "")) = none →
      mainModel args = (1, 0)) ∧
    (∀ s : Int, make_scenario s = none ↔ s ∉ ([1, 2, 3, 4] : List Int)) ∧
    (3 ≤ args.length → make_scenario (atoi (args.getD 2 "")) ≠ none →
      policyOfString (args.getD 1 "") = none → mainModel args = (1, 0)) ∧
    (∀ s : String, policyOfString s = none ↔
      s ∉ (["fifo", "sjf", "rr", "mlfq"] : List String)) ∧
    (∀ (pol : Policy) (ps : List Process), 3 ≤ args.length →
      policyOfString (args.getD 1 "") = some pol →
      make_scenario (atoi (args.getD 2 "")) = some ps →
      (args.length = 3 → mainModel args = (0, 3)) ∧
      (4 ≤ args.length → atoi (args.getD 3 "") < 1 → mainModel args = (0, 1)) ∧
      (4 ≤ args.length → 1 ≤ atoi (args.getD 3 "") →
        mainModel args = (0, (atoi (args.getD 3 "")).toNat))) := by
  refine ⟨?_, ?_, ?_, ?_, ?_, ?_⟩
  · intro hlen
    simp only [mainModel, if_pos hlen]
  · intro hlen hscen
    simp only [mainModel, if_neg (not_lt.mpr hlen), hscen]
  · intro s
    unfold make_scenario
    split_ifs with h1 h2 h3 h4 <;> simp_all
  · intro hlen hscen hpol
    simp only [mainModel, if_neg (not_lt.mpr hlen)]
    rcases hsc : make_scenario (atoi (args.getD 2 "")) with _ | ps
    · exact absurd hsc hscen
    · simp only [hpol]
  · intro s
    unfold policyOfString
    split_ifs with h1 h2 h3 h4 <;> simp_all
  · intro pol ps hlen hpol hscen
    refine ⟨?_, ?_, ?_⟩
    · intro h3
      have h4 : ¬ 4 ≤ args.length := by omega
      simp only [mainModel, if_neg (not_lt.mpr hlen), hscen, hpol, if_neg h4]
      decide
    · intro h4 hlt
      simp only [mainModel, if_neg (not_lt.mpr hlen), hscen, hpol, if_pos h4,
        if_pos hlt]
      rfl
    · intro h4 hge
      have hnlt : ¬ atoi (args.getD 3 "") < 1 := not_lt.mpr hge
      simp only [mainModel, if_neg (not_lt.mpr hlen), hscen, hpol, if_pos h4,
        if_neg hnlt]

/-- Witness for C9 at concrete command lines: `run fifo 1` succeeds with
the default repeat 3; `run rr 3 0` clamps the repeat to 1; `run fifo 5`
and `run xxx 2` exit 1 with no run performed; a lone `run` exits 1. -/
theorem C9_cli_witness :
    mainModel ["sim"] = (1, 0) ∧
    mainModel ["sim", "fifo", "5"] = (1, 0) ∧
    mainModel ["sim", "xxx", "2"] = (1, 0) ∧
    mainModel ["sim", "fifo", "1"] = (0, 3) ∧
    mainModel ["sim", "rr", "3", "0"] = (0, 1) ∧
    mainModel ["sim", "rr", "3", "7"] = (0, 7) :=
  ⟨(C9_cli ["sim"]).1 (by decide),
    (C9_cli ["sim", "fifo", "5"]).2.1 (by decide) (by decide),
    (C9_cli ["sim", "xxx", "2"]).2.2.2.1 (by decide) (by decide) (by decide),
    ((C9_cli ["sim", "fifo", "1"]).2.2.2.2.2 Policy.fifo scenario1
      (by decide) (by decide) (by decide)).1 (by decide),
    ((C9_cli ["sim", "rr", "3", "0"]).2.2.2.2.2 Policy.rr scenario3
      (by decide) (by decide) (by decide)).2.1 (by decide) (by decide),
    ((C9_cli ["sim", "rr", "3", "7"]).2.2.2.2.2 Policy.rr scenario3
      (by decide) (by decide) (by decide)).2.2 (by decide) (by decide)⟩

end Sched
